import Mathlib

/-! StreamKit: the ChaCha20 stream cipher (`Core/include/chacha20.c`)

A shallow embedding of the C sources of the ChaCha20 primitive and theorems
about it.

Modelling conventions.

* `u32` and `u8` values are natural numbers.  Every operation that can leave
  the 32-bit range in C (`PLUS`, the left shift inside `ROTL32`, the scaling
  of a block count) carries its reduction modulo `2^32` explicitly.
* The context `CHACHA20_ctx` holds the array `u32 input[16]` as a function on
  `Fin 16`, so a context always has exactly sixteen words.
* Byte buffers reached through pointers (`k`, `iv`, `m`, `c`) are lists of
  bytes.  A read past the end of a list yields `0` and a write past the end is
  dropped; in C both are out of contract, and the theorems that depend on it
  assume the buffers are long enough.
* The advancing pointers `m += 64`, `c += 64` of `CHACHA20_encrypt_bytes` are
  an offset `off` into the two lists.  Source and destination are separate
  buffers.
* `U32TO8_LITTLE` stores a word through a `u32*`; `U32TO32_LITTLE` is the
  identity, i.e. the sources assume a little-endian host, and the model stores
  the least significant byte first.
* A procedure that mutates its arguments returns the new values.
-/

set_option linter.unusedVariables false

namespace StreamKit

/-! ## `encrypt-portable.h` -/

/-- Macro `ROTL32(v, n)`: `((v) << (n)) | ((v) >> (32 - (n)))` on a `u32`. -/
def ROTL32 (v n : Nat) : Nat :=
  ((v <<< n) % 2 ^ 32) ||| (v >>> (32 - n))

/-- Macro `U8TO32_LITTLE(p)` applied to the pointer `p + off`. -/
def U8TO32_LITTLE (p : List Nat) (off : Nat) : Nat :=
  (p.getD off 0) |||
  ((p.getD (off + 1) 0) <<< 8) |||
  ((p.getD (off + 2) 0) <<< 16) |||
  ((p.getD (off + 3) 0) <<< 24)

/-- Macro `U32TO32_LITTLE(v)`: the identity. -/
def U32TO32_LITTLE (v : Nat) : Nat := v

/-- Macro `U32TO8_LITTLE(p, v)`: the four bytes that the word store
`((u32*)(p))[0] = v` leaves at `p[0..3]` (little-endian host). -/
def U32TO8_LITTLE (v : Nat) : List Nat :=
  [U32TO32_LITTLE v % 256, (U32TO32_LITTLE v >>> 8) % 256,
   (U32TO32_LITTLE v >>> 16) % 256, (U32TO32_LITTLE v >>> 24) % 256]

/-! ## `chacha20.h` -/

/-- The struct `CHACHA20_ctx`: `u32 input[16]`. -/
@[ext]
structure CHACHA20_ctx where
  input : Fin 16 → Nat

/-- The constant `CHACHA20_BLOCKLENGTH`. -/
def CHACHA20_BLOCKLENGTH : Nat := 64

/-! ## `chacha20.c` -/

/-- Macro `ROTATE(v,c)`. -/
def ROTATE (v c : Nat) : Nat := ROTL32 v c

/-- Macro `XOR(v,w)`. -/
def XOR (v w : Nat) : Nat := v ^^^ w

/-- Macro `PLUS(v,w)`: addition of two `u32`. -/
def PLUS (v w : Nat) : Nat := (v + w) % 2 ^ 32

/-- Macro `PLUSONE(v)`. -/
def PLUSONE (v : Nat) : Nat := PLUS v 1

/-- Macro `QUARTERROUND(a,b,c,d)`: the new values of the four variables. -/
def QUARTERROUND (a b c d : Nat) : Nat × Nat × Nat × Nat :=
  let a := PLUS a b
  let d := ROTATE (XOR d a) 16
  let c := PLUS c d
  let b := ROTATE (XOR b c) 12
  let a := PLUS a b
  let d := ROTATE (XOR d a) 8
  let c := PLUS c d
  let b := ROTATE (XOR b c) 7
  (a, b, c, d)

/-- The sixteen local variables `x0 .. x15` of `chacha20_wordtobyte`. -/
structure Regs where
  x0 : Nat
  x1 : Nat
  x2 : Nat
  x3 : Nat
  x4 : Nat
  x5 : Nat
  x6 : Nat
  x7 : Nat
  x8 : Nat
  x9 : Nat
  x10 : Nat
  x11 : Nat
  x12 : Nat
  x13 : Nat
  x14 : Nat
  x15 : Nat
deriving DecidableEq

/-- The body of the round loop of `chacha20_wordtobyte`: eight quarter
rounds, four on the columns and four on the diagonals. -/
def round_body (r : Regs) : Regs :=
  match QUARTERROUND r.x0 r.x4 r.x8 r.x12 with
  | (x0, x4, x8, x12) =>
  match QUARTERROUND r.x1 r.x5 r.x9 r.x13 with
  | (x1, x5, x9, x13) =>
  match QUARTERROUND r.x2 r.x6 r.x10 r.x14 with
  | (x2, x6, x10, x14) =>
  match QUARTERROUND r.x3 r.x7 r.x11 r.x15 with
  | (x3, x7, x11, x15) =>
  match QUARTERROUND x0 x5 x10 x15 with
  | (x0, x5, x10, x15) =>
  match QUARTERROUND x1 x6 x11 x12 with
  | (x1, x6, x11, x12) =>
  match QUARTERROUND x2 x7 x8 x13 with
  | (x2, x7, x8, x13) =>
  match QUARTERROUND x3 x4 x9 x14 with
  | (x3, x4, x9, x14) =>
  ⟨x0, x1, x2, x3, x4, x5, x6, x7, x8, x9, x10, x11, x12, x13, x14, x15⟩

/-- The loop `for (i = 20; i > 0; i -= 2) { ... }` of `chacha20_wordtobyte`,
started with the loop variable at `i`. -/
def round_loop : Nat → Regs → Regs
  | 0, r => r
  | 1, r => round_body r
  | i + 2, r => round_loop i (round_body r)

/-- The function `chacha20_wordtobyte`: the 64 bytes written to `output`. -/
def chacha20_wordtobyte (input : Fin 16 → Nat) : List Nat :=
  let x : Regs :=
    ⟨input 0, input 1, input 2, input 3, input 4, input 5, input 6, input 7,
     input 8, input 9, input 10, input 11, input 12, input 13, input 14, input 15⟩
  let x := round_loop 20 x
  let x0 := PLUS x.x0 (input 0)
  let x1 := PLUS x.x1 (input 1)
  let x2 := PLUS x.x2 (input 2)
  let x3 := PLUS x.x3 (input 3)
  let x4 := PLUS x.x4 (input 4)
  let x5 := PLUS x.x5 (input 5)
  let x6 := PLUS x.x6 (input 6)
  let x7 := PLUS x.x7 (input 7)
  let x8 := PLUS x.x8 (input 8)
  let x9 := PLUS x.x9 (input 9)
  let x10 := PLUS x.x10 (input 10)
  let x11 := PLUS x.x11 (input 11)
  let x12 := PLUS x.x12 (input 12)
  let x13 := PLUS x.x13 (input 13)
  let x14 := PLUS x.x14 (input 14)
  let x15 := PLUS x.x15 (input 15)
  U32TO8_LITTLE x0 ++ U32TO8_LITTLE x1 ++ U32TO8_LITTLE x2 ++ U32TO8_LITTLE x3 ++
  U32TO8_LITTLE x4 ++ U32TO8_LITTLE x5 ++ U32TO8_LITTLE x6 ++ U32TO8_LITTLE x7 ++
  U32TO8_LITTLE x8 ++ U32TO8_LITTLE x9 ++ U32TO8_LITTLE x10 ++ U32TO8_LITTLE x11 ++
  U32TO8_LITTLE x12 ++ U32TO8_LITTLE x13 ++ U32TO8_LITTLE x14 ++ U32TO8_LITTLE x15

/-- The array `sigma`: the sixteen characters of `"expand 32-byte k"`. -/
def sigma : List Nat := "expand 32-byte k".toList.map Char.toNat

/-- The assignment `x->input[i] = v`. -/
def CHACHA20_ctx.set (x : CHACHA20_ctx) (i : Fin 16) (v : Nat) : CHACHA20_ctx :=
  ⟨Function.update x.input i v⟩

/-- The function `CHACHA20_keysetup`. -/
def CHACHA20_keysetup (x : CHACHA20_ctx) (k : List Nat) (kbits ivbits : Nat) :
    CHACHA20_ctx :=
  let x := x.set 0 (U8TO32_LITTLE sigma 0)
  let x := x.set 1 (U8TO32_LITTLE sigma 4)
  let x := x.set 2 (U8TO32_LITTLE sigma 8)
  let x := x.set 3 (U8TO32_LITTLE sigma 12)
  let x := x.set 4 (U8TO32_LITTLE k 0)
  let x := x.set 5 (U8TO32_LITTLE k 4)
  let x := x.set 6 (U8TO32_LITTLE k 8)
  let x := x.set 7 (U8TO32_LITTLE k 12)
  let x := x.set 8 (U8TO32_LITTLE k 16)
  let x := x.set 9 (U8TO32_LITTLE k 20)
  let x := x.set 10 (U8TO32_LITTLE k 24)
  let x := x.set 11 (U8TO32_LITTLE k 28)
  x

/-- The function `CHACHA20_ivsetup`. -/
def CHACHA20_ivsetup (x : CHACHA20_ctx) (iv : List Nat) : CHACHA20_ctx :=
  let x := x.set 12 0
  let x := x.set 13 (U8TO32_LITTLE iv 0)
  let x := x.set 14 (U8TO32_LITTLE iv 4)
  let x := x.set 15 (U8TO32_LITTLE iv 8)
  x

/-- The loop `for (i = 0; i < n; ++i) c[i] = m[i] ^ output[i];` of
`CHACHA20_encrypt_bytes`, with `m` and `c` advanced by `off` bytes. -/
def xor_loop (m c output : List Nat) (off n : Nat) : List Nat :=
  (List.range n).foldl
    (fun c i => c.set (off + i) (m.getD (off + i) 0 ^^^ output.getD i 0)) c

/-- The loop `for (;;) { ... }` of `CHACHA20_encrypt_bytes`, entered with the
pointers `m` and `c` advanced by `off` bytes and `bytes` bytes left. -/
def encrypt_loop (x : CHACHA20_ctx) (m c : List Nat) (off bytes : Nat) :
    CHACHA20_ctx × List Nat :=
  let output := chacha20_wordtobyte x.input
  let x := x.set 12 (PLUSONE (x.input 12))
  if h : bytes ≤ 64 then
    (x, xor_loop m c output off bytes)
  else
    encrypt_loop x m (xor_loop m c output off 64) (off + 64) (bytes - 64)
termination_by bytes
decreasing_by omega

/-- The function `CHACHA20_encrypt_bytes`: the context and the buffer `c`
after the call. -/
def CHACHA20_encrypt_bytes (x : CHACHA20_ctx) (m c : List Nat) (bytes : Nat) :
    CHACHA20_ctx × List Nat :=
  if bytes = 0 then (x, c) else encrypt_loop x m c 0 bytes

/-- The function `CHACHA20_decrypt_bytes`: the context and the buffer `m`
after the call. -/
def CHACHA20_decrypt_bytes (x : CHACHA20_ctx) (c m : List Nat) (bytes : Nat) :
    CHACHA20_ctx × List Nat :=
  CHACHA20_encrypt_bytes x c m bytes

/-- The function `CHACHA20_encrypt_blocks`; the product is a `u32`. -/
def CHACHA20_encrypt_blocks (ctx : CHACHA20_ctx) (plaintext ciphertext : List Nat)
    (blocks : Nat) : CHACHA20_ctx × List Nat :=
  CHACHA20_encrypt_bytes ctx plaintext ciphertext
    ((blocks * CHACHA20_BLOCKLENGTH) % 2 ^ 32)

/-- The function `CHACHA20_decrypt_blocks`; the product is a `u32`. -/
def CHACHA20_decrypt_blocks (ctx : CHACHA20_ctx) (ciphertext plaintext : List Nat)
    (blocks : Nat) : CHACHA20_ctx × List Nat :=
  CHACHA20_decrypt_bytes ctx ciphertext plaintext
    ((blocks * CHACHA20_BLOCKLENGTH) % 2 ^ 32)

/-- The all-zero context. -/
def zero_ctx : CHACHA20_ctx := ⟨fun _ => 0⟩

/-! ## Callers used to state the properties -/

/-- One keystream block has been produced: lines `chacha20_wordtobyte(output,
x->input); x->input[12] = PLUSONE(x->input[12]);` leave this context. -/
def next_block (x : CHACHA20_ctx) : CHACHA20_ctx :=
  x.set 12 (PLUSONE (x.input 12))

/-- The context after `j` keystream blocks have been produced. -/
def advance (x : CHACHA20_ctx) (j : Nat) : CHACHA20_ctx :=
  Nat.iterate next_block j x

/-- The context `x` with the counter word `input[12]` replaced by
`(input[12] + j) mod 2^32`. -/
def with_counter (x : CHACHA20_ctx) (j : Nat) : CHACHA20_ctx :=
  x.set 12 ((x.input 12 + j) % 2 ^ 32)

/-- The keystream block `K_j`: what `chacha20_wordtobyte` produces from the
words of `x` with the counter word replaced by `(input[12] + j) mod 2^32`. -/
def keystream_block (x : CHACHA20_ctx) (j : Nat) : List Nat :=
  chacha20_wordtobyte (with_counter x j).input

/-- One call of the streaming interface, with its arguments. -/
inductive Call where
  | encrypt_bytes (m c : List Nat) (bytes : Nat)
  | decrypt_bytes (c m : List Nat) (bytes : Nat)
  | encrypt_blocks (plaintext ciphertext : List Nat) (blocks : Nat)
  | decrypt_blocks (ciphertext plaintext : List Nat) (blocks : Nat)

/-- The call, made on the context `x`. -/
def Call.run (x : CHACHA20_ctx) : Call → CHACHA20_ctx × List Nat
  | .encrypt_bytes m c bytes => CHACHA20_encrypt_bytes x m c bytes
  | .decrypt_bytes c m bytes => CHACHA20_decrypt_bytes x c m bytes
  | .encrypt_blocks plaintext ciphertext blocks =>
    CHACHA20_encrypt_blocks x plaintext ciphertext blocks
  | .decrypt_blocks ciphertext plaintext blocks =>
    CHACHA20_decrypt_blocks x ciphertext plaintext blocks

/-- The length in bytes that the call processes: the length argument of a
byte call, the `u32` product `blocks * 64` of a block call. -/
def Call.length : Call → Nat
  | .encrypt_bytes _ _ bytes => bytes
  | .decrypt_bytes _ _ bytes => bytes
  | .encrypt_blocks _ _ blocks => (blocks * CHACHA20_BLOCKLENGTH) % 2 ^ 32
  | .decrypt_blocks _ _ blocks => (blocks * CHACHA20_BLOCKLENGTH) % 2 ^ 32

/-- The context left by a sequence of calls made one after the other on one
context. -/
def run_calls (x : CHACHA20_ctx) : List Call → CHACHA20_ctx
  | [] => x
  | call :: rest => run_calls (call.run x).1 rest

/-- The number of 64-byte blocks that cover `bytes` bytes: `ceil(bytes/64)`. -/
def blocks_of (bytes : Nat) : Nat := (bytes + 63) / 64

/-- A message is encrypted chunk by chunk: one `CHACHA20_encrypt_bytes` call
per chunk on the context left by the previous call, each into a buffer of the
length of the chunk; the outputs are concatenated. -/
def encrypt_chunks (x : CHACHA20_ctx) : List (List Nat) → CHACHA20_ctx × List Nat
  | [] => (x, [])
  | chunk :: rest =>
    let r := CHACHA20_encrypt_bytes x chunk (List.replicate chunk.length 0) chunk.length
    let r2 := encrypt_chunks r.1 rest
    (r2.1, r.2 ++ r2.2)

/-- Every chunk but the last has a length that is a multiple of 64. -/
def block_aligned (chunks : List (List Nat)) : Prop :=
  ∀ chunk ∈ chunks.dropLast, chunk.length % 64 = 0

/-- The 64 bytes of ciphertext of RFC 7539 appendix A.1, test vector #1. -/
def rfc7539_a1_vector1 : List Nat :=
  [0x76, 0xb8, 0xe0, 0xad, 0xa0, 0xf1, 0x3d, 0x90, 0x40, 0x5d, 0x6a, 0xe5, 0x53, 0x86, 0xbd, 0x28,
   0xbd, 0xd2, 0x19, 0xb8, 0xa0, 0x8d, 0xed, 0x1a, 0xa8, 0x36, 0xef, 0xcc, 0x8b, 0x77, 0x0d, 0xc7,
   0xda, 0x41, 0x59, 0x7c, 0x51, 0x57, 0x48, 0x8d, 0x77, 0x24, 0xe0, 0x3f, 0xb8, 0xd8, 0x4a, 0x37,
   0x6a, 0x43, 0xb8, 0xf4, 0x15, 0x18, 0xa1, 0x1c, 0xc3, 0x87, 0xb6, 0x69, 0xb2, 0xee, 0x65, 0x86]

/-- The context set up from a key of 32 zero bytes and a nonce of 12 zero
bytes, starting from the all-zero context. -/
def zero_key_ctx : CHACHA20_ctx :=
  CHACHA20_ivsetup (CHACHA20_keysetup zero_ctx (List.replicate 32 0) 256 96)
    (List.replicate 12 0)

/-! ## The quarter round in the words of the specification -/

/-- Rotation of a 32-bit word to the left by `n` bits, in arithmetic: the low
`32 - n` bits move up by `n` places and the high `n` bits come down. -/
def rotate_left (v n : Nat) : Nat :=
  (v % 2 ^ (32 - n)) * 2 ^ n + v / 2 ^ (32 - n)

/-- The quarter round as the specification writes it: addition modulo `2^32`,
exclusive-or and rotation to the left. -/
def quarter_round (a b c d : Nat) : Nat × Nat × Nat × Nat :=
  let a := (a + b) % 2 ^ 32
  let d := rotate_left (d ^^^ a) 16
  let c := (c + d) % 2 ^ 32
  let b := rotate_left (b ^^^ c) 12
  let a := (a + b) % 2 ^ 32
  let d := rotate_left (d ^^^ a) 8
  let c := (c + d) % 2 ^ 32
  let b := rotate_left (b ^^^ c) 7
  (a, b, c, d)

/-! ## The round loop with a count of the quarter rounds -/

/-- One application of `QUARTERROUND`, counted in `n`. -/
def QUARTERROUND_counted (a b c d n : Nat) : (Nat × Nat × Nat × Nat) × Nat :=
  (QUARTERROUND a b c d, n + 1)

/-- The body of the round loop, every `QUARTERROUND` counted. -/
def round_body_counted (r : Regs) (n : Nat) : Regs × Nat :=
  match QUARTERROUND_counted r.x0 r.x4 r.x8 r.x12 n with
  | ((x0, x4, x8, x12), n) =>
  match QUARTERROUND_counted r.x1 r.x5 r.x9 r.x13 n with
  | ((x1, x5, x9, x13), n) =>
  match QUARTERROUND_counted r.x2 r.x6 r.x10 r.x14 n with
  | ((x2, x6, x10, x14), n) =>
  match QUARTERROUND_counted r.x3 r.x7 r.x11 r.x15 n with
  | ((x3, x7, x11, x15), n) =>
  match QUARTERROUND_counted x0 x5 x10 x15 n with
  | ((x0, x5, x10, x15), n) =>
  match QUARTERROUND_counted x1 x6 x11 x12 n with
  | ((x1, x6, x11, x12), n) =>
  match QUARTERROUND_counted x2 x7 x8 x13 n with
  | ((x2, x7, x8, x13), n) =>
  match QUARTERROUND_counted x3 x4 x9 x14 n with
  | ((x3, x4, x9, x14), n) =>
  (⟨x0, x1, x2, x3, x4, x5, x6, x7, x8, x9, x10, x11, x12, x13, x14, x15⟩, n)

/-- The loop `for (i = 20; i > 0; i -= 2) { ... }`, every `QUARTERROUND`
counted. -/
def round_loop_counted : Nat → Regs → Nat → Regs × Nat
  | 0, r, n => (r, n)
  | 1, r, n => round_body_counted r n
  | i + 2, r, n =>
    match round_body_counted r n with
    | (r, n) => round_loop_counted i r n

/-- The registers `x0 .. x15` loaded from `input[0..15]`. -/
def Regs.ofFun (input : Fin 16 → Nat) : Regs :=
  ⟨input 0, input 1, input 2, input 3, input 4, input 5, input 6, input 7,
   input 8, input 9, input 10, input 11, input 12, input 13, input 14, input 15⟩

/-- The registers `x0 .. x15` as a sixteen-word state. -/
def Regs.toFun (r : Regs) : Fin 16 → Nat := fun i =>
  [r.x0, r.x1, r.x2, r.x3, r.x4, r.x5, r.x6, r.x7,
   r.x8, r.x9, r.x10, r.x11, r.x12, r.x13, r.x14, r.x15].getD i.val 0

/-! ## The mixing pass on a sixteen-word state, in the words of the specification -/

/-- The quarter round applied to the words at the indices `a, b, c, d` of a
sixteen-word state. -/
def quarter_round_at (a b c d : Fin 16) (s : Fin 16 → Nat) : Fin 16 → Nat :=
  Function.update
    (Function.update
      (Function.update
        (Function.update s a (QUARTERROUND (s a) (s b) (s c) (s d)).1)
        b (QUARTERROUND (s a) (s b) (s c) (s d)).2.1)
      c (QUARTERROUND (s a) (s b) (s c) (s d)).2.2.1)
    d (QUARTERROUND (s a) (s b) (s c) (s d)).2.2.2

/-- The double round: quarter rounds on the word indices `(0,4,8,12)`,
`(1,5,9,13)`, `(2,6,10,14)`, `(3,7,11,15)`, then on `(0,5,10,15)`,
`(1,6,11,12)`, `(2,7,8,13)`, `(3,4,9,14)`. -/
def double_round (s : Fin 16 → Nat) : Fin 16 → Nat :=
  quarter_round_at 3 4 9 14 (quarter_round_at 2 7 8 13 (quarter_round_at 1 6 11 12
    (quarter_round_at 0 5 10 15 (quarter_round_at 3 7 11 15 (quarter_round_at 2 6 10 14
      (quarter_round_at 1 5 9 13 (quarter_round_at 0 4 8 12 s)))))))

/-- The permutation `P`: ten iterations of the double round. -/
def mixing_pass (s : Fin 16 → Nat) : Fin 16 → Nat :=
  Nat.iterate double_round 10 s

/-- The little-endian encoding of a 32-bit word: four bytes, the least
significant first. -/
def little_endian (w : Nat) : List Nat :=
  [w % 256, w / 2 ^ 8 % 256, w / 2 ^ 16 % 256, w / 2 ^ 24 % 256]

/-! ## The inverse of the quarter round -/

/-- Subtraction modulo `2^32`. -/
def minus32 (v w : Nat) : Nat := (v + 2 ^ 32 - w) % 2 ^ 32

/-- Rotation of a 32-bit word to the right by `n` bits. -/
def rotate_right (v n : Nat) : Nat :=
  v / 2 ^ n + (v % 2 ^ n) * 2 ^ (32 - n)

/-- The steps of `QUARTERROUND` undone in reverse order, with subtraction
modulo `2^32`, rotation to the right and exclusive-or. -/
def quarter_round_inverse (a b c d : Nat) : Nat × Nat × Nat × Nat :=
  let b := rotate_right b 7 ^^^ c
  let c := minus32 c d
  let d := rotate_right d 8 ^^^ a
  let a := minus32 a b
  let b := rotate_right b 12 ^^^ c
  let c := minus32 c d
  let d := rotate_right d 16 ^^^ a
  let a := minus32 a b
  (a, b, c, d)

/-- `QUARTERROUND` as a map on 4-tuples. -/
def quarter_round_map (t : Nat × Nat × Nat × Nat) : Nat × Nat × Nat × Nat :=
  QUARTERROUND t.1 t.2.1 t.2.2.1 t.2.2.2

/-- The inverse quarter round as a map on 4-tuples. -/
def quarter_round_inverse_map (t : Nat × Nat × Nat × Nat) : Nat × Nat × Nat × Nat :=
  quarter_round_inverse t.1 t.2.1 t.2.2.1 t.2.2.2

/-- The 4-tuples of 32-bit words. -/
def tuples32 : Set (Nat × Nat × Nat × Nat) :=
  {t | t.1 < 2 ^ 32 ∧ t.2.1 < 2 ^ 32 ∧ t.2.2.1 < 2 ^ 32 ∧ t.2.2.2 < 2 ^ 32}

/-- The sixteen-word states of 32-bit words. -/
def states32 : Set (Fin 16 → Nat) :=
  {s | ∀ i : Fin 16, s i < 2 ^ 32}

/-- The register files `x0 .. x15` of 32-bit words. -/
def regs32 : Set Regs :=
  {r | r.toFun ∈ states32}

/-- The inverse quarter round applied to the words at the indices `a, b, c, d`
of a sixteen-word state. -/
def quarter_round_inverse_at (a b c d : Fin 16) (s : Fin 16 → Nat) : Fin 16 → Nat :=
  Function.update
    (Function.update
      (Function.update
        (Function.update s a (quarter_round_inverse (s a) (s b) (s c) (s d)).1)
        b (quarter_round_inverse (s a) (s b) (s c) (s d)).2.1)
      c (quarter_round_inverse (s a) (s b) (s c) (s d)).2.2.1)
    d (quarter_round_inverse (s a) (s b) (s c) (s d)).2.2.2

/-- The words at the indices `a, b, c, d` of a sixteen-word state replaced by
the components of `t`. -/
def update4 (a b c d : Fin 16) (t : Nat × Nat × Nat × Nat) (s : Fin 16 → Nat) :
    Fin 16 → Nat :=
  Function.update (Function.update (Function.update (Function.update s a t.1) b t.2.1)
    c t.2.2.1) d t.2.2.2

/-! ## The main loop, one iteration at a time -/

/-- The variables of the loop `for (;;) { ... }` of `CHACHA20_encrypt_bytes` at
the head of an iteration, and `blocks`, the number of calls of
`chacha20_wordtobyte` made so far. -/
structure LoopState where
  x : CHACHA20_ctx
  c : List Nat
  off : Nat
  bytes : Nat
  blocks : Nat

/-- One pass through the body of the loop: the function returns (right) with
the context, the output buffer and the number of keystream blocks generated,
or the loop goes round again (left).  The statement `bytes -= 64` is the `u32`
subtraction, which would wrap below zero. -/
def loop_iteration (m : List Nat) (s : LoopState) :
    LoopState ⊕ (CHACHA20_ctx × List Nat × Nat) :=
  let output := chacha20_wordtobyte s.x.input
  let x := s.x.set 12 (PLUSONE (s.x.input 12))
  if s.bytes ≤ 64 then
    Sum.inr (x, xor_loop m s.c output s.off s.bytes, s.blocks + 1)
  else
    Sum.inl ⟨x, xor_loop m s.c output s.off 64, s.off + 64,
      (s.bytes + 2 ^ 32 - 64) % 2 ^ 32, s.blocks + 1⟩

/-- At most `fuel` passes through the body of the loop: `none` when the loop
has not returned by then. -/
def loop_run (m : List Nat) : Nat → LoopState → Option (CHACHA20_ctx × List Nat × Nat)
  | 0, _ => none
  | fuel + 1, s =>
    match loop_iteration m s with
    | Sum.inr r => some r
    | Sum.inl s => loop_run m fuel s

/-- The function `CHACHA20_encrypt_bytes` run for at most `fuel` passes
through its loop: the context, the output buffer and the number of keystream
blocks generated. -/
def encrypt_bytes_run (fuel : Nat) (x : CHACHA20_ctx) (m c : List Nat) (bytes : Nat) :
    Option (CHACHA20_ctx × List Nat × Nat) :=
  if bytes = 0 then some (x, c, 0) else loop_run m fuel ⟨x, c, 0, bytes, 0⟩

/-! ## The inner exclusive-or loop -/

theorem xor_loop_succ (m c output : List Nat) (off n : Nat) :
    xor_loop m c output off (n + 1) =
      (xor_loop m c output off n).set (off + n)
        (m.getD (off + n) 0 ^^^ output.getD n 0) := by
  simp [xor_loop, List.range_succ, List.foldl_append]

theorem xor_loop_length (m c output : List Nat) (off n : Nat) :
    (xor_loop m c output off n).length = c.length := by
  induction n with
  | zero => simp [xor_loop]
  | succ n ih => rw [xor_loop_succ, List.length_set, ih]

theorem xor_loop_getElem? (m c output : List Nat) (off n i : Nat) :
    (xor_loop m c output off n)[i]? =
      if off ≤ i ∧ i < off + n ∧ i < c.length then
        some (m.getD i 0 ^^^ output.getD (i - off) 0)
      else (c)[i]? := by
  induction n with
  | zero =>
    have h : ¬ (off ≤ i ∧ i < off + 0 ∧ i < c.length) := by omega
    rw [if_neg h]
    simp [xor_loop]
  | succ n ih =>
    rw [xor_loop_succ, List.getElem?_set, ih, xor_loop_length]
    by_cases h1 : off + n = i
    · subst h1
      have h2 : ¬ (off ≤ off + n ∧ off + n < off + n ∧ off + n < c.length) := by omega
      by_cases h3 : off + n < c.length
      · have h4 : off ≤ off + n ∧ off + n < off + (n + 1) ∧ off + n < c.length := by omega
        simp [h3, h4]
      · have h4 : ¬ (off ≤ off + n ∧ off + n < off + (n + 1) ∧ off + n < c.length) := by
          omega
        rw [if_pos rfl, if_neg h3, if_neg h4]
        exact (List.getElem?_eq_none (by omega)).symm
    · rw [if_neg h1]
      by_cases h2 : off ≤ i ∧ i < off + n ∧ i < c.length
      · have h3 : off ≤ i ∧ i < off + (n + 1) ∧ i < c.length := by omega
        rw [if_pos h2, if_pos h3]
      · have h3 : ¬ (off ≤ i ∧ i < off + (n + 1) ∧ i < c.length) := by omega
        rw [if_neg h2, if_neg h3]

/-! ## The block counter -/

theorem set_input_self (x : CHACHA20_ctx) (i : Fin 16) (v : Nat) :
    (x.set i v).input i = v := by
  simp [CHACHA20_ctx.set]

theorem set_input_ne (x : CHACHA20_ctx) (i j : Fin 16) (v : Nat) (h : j ≠ i) :
    (x.set i v).input j = x.input j := by
  simp [CHACHA20_ctx.set, Function.update_noteq h]

theorem set_set (x : CHACHA20_ctx) (i : Fin 16) (v w : Nat) :
    (x.set i v).set i w = x.set i w := by
  simp [CHACHA20_ctx.set]

theorem advance_succ (x : CHACHA20_ctx) (j : Nat) :
    advance x (j + 1) = next_block (advance x j) := by
  simp only [advance]
  exact Function.iterate_succ_apply' next_block j x

theorem advance_next_block (x : CHACHA20_ctx) (j : Nat) :
    advance (next_block x) j = advance x (j + 1) := rfl

theorem advance_add (x : CHACHA20_ctx) (a b : Nat) :
    advance (advance x a) b = advance x (a + b) := by
  simp only [advance]
  rw [Nat.add_comm, Function.iterate_add_apply]

theorem advance_input_ne (x : CHACHA20_ctx) (j : Nat) (i : Fin 16) (h : i ≠ 12) :
    (advance x j).input i = x.input i := by
  induction j with
  | zero => rfl
  | succ j ih => rw [advance_succ, next_block, set_input_ne _ _ _ _ h, ih]

theorem advance_input_counter (x : CHACHA20_ctx) (j : Nat)
    (h : 0 < j ∨ x.input 12 < 2 ^ 32) :
    (advance x j).input 12 = (x.input 12 + j) % 2 ^ 32 := by
  induction j with
  | zero =>
    have h1 : x.input 12 < 2 ^ 32 := by omega
    simp only [advance, Function.iterate_zero, id_eq, Nat.add_zero]
    exact (Nat.mod_eq_of_lt h1).symm
  | succ j ih =>
    rw [advance_succ, next_block, set_input_self, PLUSONE, PLUS]
    rcases Nat.eq_zero_or_pos j with h0 | h0
    · subst h0
      rfl
    · rw [ih (Or.inl h0)]
      omega

theorem advance_eq_with_counter (x : CHACHA20_ctx) (j : Nat)
    (h : 0 < j ∨ x.input 12 < 2 ^ 32) :
    advance x j = with_counter x j := by
  ext i
  by_cases hi : i = 12
  · subst hi
    rw [advance_input_counter x j h, with_counter, set_input_self]
  · rw [advance_input_ne x j i hi, with_counter, set_input_ne _ _ _ _ hi]

/-! ## The main loop of `CHACHA20_encrypt_bytes` -/

theorem encrypt_loop_eq (x : CHACHA20_ctx) (m c : List Nat) (off bytes : Nat) :
    encrypt_loop x m c off bytes =
      if bytes ≤ 64 then
        (next_block x, xor_loop m c (chacha20_wordtobyte x.input) off bytes)
      else
        encrypt_loop (next_block x) m
          (xor_loop m c (chacha20_wordtobyte x.input) off 64) (off + 64) (bytes - 64) := by
  rw [encrypt_loop]
  rfl

theorem encrypt_loop_ctx (m : List Nat) (bytes : Nat) :
    ∀ (x : CHACHA20_ctx) (c : List Nat) (off : Nat), 0 < bytes →
      (encrypt_loop x m c off bytes).1 = advance x ((bytes + 63) / 64) := by
  induction bytes using Nat.strong_induction_on with
  | _ bytes ih =>
    intro x c off hpos
    rw [encrypt_loop_eq]
    by_cases h : bytes ≤ 64
    · rw [if_pos h]
      have h1 : (bytes + 63) / 64 = 1 := by omega
      rw [h1]
      rfl
    · rw [if_neg h, ih (bytes - 64) (by omega) _ _ _ (by omega), advance_next_block]
      congr 1
      omega

theorem encrypt_loop_length (m : List Nat) (bytes : Nat) :
    ∀ (x : CHACHA20_ctx) (c : List Nat) (off : Nat),
      (encrypt_loop x m c off bytes).2.length = c.length := by
  induction bytes using Nat.strong_induction_on with
  | _ bytes ih =>
    intro x c off
    rw [encrypt_loop_eq]
    by_cases h : bytes ≤ 64
    · rw [if_pos h]
      exact xor_loop_length _ _ _ _ _
    · rw [if_neg h, ih (bytes - 64) (by omega), xor_loop_length]

theorem encrypt_loop_getElem? (m : List Nat) (bytes : Nat) :
    ∀ (x : CHACHA20_ctx) (c : List Nat) (off i : Nat),
      (encrypt_loop x m c off bytes).2[i]? =
        if off ≤ i ∧ i < off + bytes ∧ i < c.length then
          some (m.getD i 0 ^^^
            (chacha20_wordtobyte (advance x ((i - off) / 64)).input).getD ((i - off) % 64) 0)
        else (c)[i]? := by
  induction bytes using Nat.strong_induction_on with
  | _ bytes ih =>
    intro x c off i
    rw [encrypt_loop_eq]
    by_cases h : bytes ≤ 64
    · rw [if_pos h]
      show (xor_loop m c (chacha20_wordtobyte x.input) off bytes)[i]? = _
      rw [xor_loop_getElem?]
      by_cases h1 : off ≤ i ∧ i < off + bytes ∧ i < c.length
      · have h2 : (i - off) / 64 = 0 := by omega
        have h3 : (i - off) % 64 = i - off := by omega
        rw [if_pos h1, if_pos h1, h2, h3]
        rfl
      · rw [if_neg h1, if_neg h1]
    · rw [if_neg h, ih (bytes - 64) (by omega), xor_loop_length, xor_loop_getElem?]
      by_cases h1 : off + 64 ≤ i ∧ i < off + 64 + (bytes - 64) ∧ i < c.length
      · have h2 : off ≤ i ∧ i < off + bytes ∧ i < c.length := by omega
        have h3 : (i - off) / 64 = (i - (off + 64)) / 64 + 1 := by omega
        have h4 : (i - off) % 64 = (i - (off + 64)) % 64 := by omega
        rw [if_pos h1, if_pos h2, h3, h4, advance_next_block]
      · rw [if_neg h1]
        by_cases h2 : off ≤ i ∧ i < off + 64 ∧ i < c.length
        · have h3 : off ≤ i ∧ i < off + bytes ∧ i < c.length := by omega
          have h4 : (i - off) / 64 = 0 := by omega
          have h5 : (i - off) % 64 = i - off := by omega
          rw [if_pos h2, if_pos h3, h4, h5]
          rfl
        · have h3 : ¬ (off ≤ i ∧ i < off + bytes ∧ i < c.length) := by omega
          rw [if_neg h2, if_neg h3]

/-! ## `CHACHA20_encrypt_bytes` in closed form -/

theorem encrypt_bytes_ctx (x : CHACHA20_ctx) (m c : List Nat) (bytes : Nat) :
    (CHACHA20_encrypt_bytes x m c bytes).1 = advance x ((bytes + 63) / 64) := by
  unfold CHACHA20_encrypt_bytes
  by_cases h : bytes = 0
  · subst h
    rfl
  · rw [if_neg h]
    exact encrypt_loop_ctx m bytes x c 0 (by omega)

theorem encrypt_bytes_length (x : CHACHA20_ctx) (m c : List Nat) (bytes : Nat) :
    (CHACHA20_encrypt_bytes x m c bytes).2.length = c.length := by
  unfold CHACHA20_encrypt_bytes
  by_cases h : bytes = 0
  · rw [if_pos h]
  · rw [if_neg h]
    exact encrypt_loop_length m bytes x c 0

theorem encrypt_bytes_getElem? (x : CHACHA20_ctx) (m c : List Nat) (bytes i : Nat) :
    (CHACHA20_encrypt_bytes x m c bytes).2[i]? =
      if i < bytes ∧ i < c.length then
        some (m.getD i 0 ^^^
          (chacha20_wordtobyte (advance x (i / 64)).input).getD (i % 64) 0)
      else (c)[i]? := by
  unfold CHACHA20_encrypt_bytes
  by_cases h : bytes = 0
  · have h1 : ¬ (i < bytes ∧ i < c.length) := by omega
    rw [if_pos h, if_neg h1]
  · rw [if_neg h, encrypt_loop_getElem?]
    by_cases h1 : i < bytes ∧ i < c.length
    · have h2 : 0 ≤ i ∧ i < 0 + bytes ∧ i < c.length := by omega
      rw [if_pos h1, if_pos h2]
      rfl
    · have h2 : ¬ (0 ≤ i ∧ i < 0 + bytes ∧ i < c.length) := by omega
      rw [if_neg h1, if_neg h2]

theorem chacha20_wordtobyte_length (input : Fin 16 → Nat) :
    (chacha20_wordtobyte input).length = 64 := by
  simp [chacha20_wordtobyte, U32TO8_LITTLE]

theorem encrypt_bytes_input_ne (x : CHACHA20_ctx) (m c : List Nat) (bytes : Nat)
    (i : Fin 16) (h : i ≠ 12) :
    (CHACHA20_encrypt_bytes x m c bytes).1.input i = x.input i := by
  rw [encrypt_bytes_ctx, advance_input_ne _ _ _ h]

theorem encrypt_bytes_short (x : CHACHA20_ctx) (m c : List Nat) (bytes : Nat)
    (h0 : bytes ≠ 0) (h : bytes ≤ 64) :
    CHACHA20_encrypt_bytes x m c bytes =
      (next_block x, xor_loop m c (chacha20_wordtobyte x.input) 0 bytes) := by
  rw [CHACHA20_encrypt_bytes, if_neg h0, encrypt_loop_eq, if_pos h]

theorem blocks_of_eq_ceil (L : Nat) : blocks_of L = ⌈(L : ℚ) / 64⌉₊ := by
  unfold blocks_of
  apply le_antisymm
  · have h1 : (L : ℚ) / 64 ≤ (⌈(L : ℚ) / 64⌉₊ : ℚ) := Nat.le_ceil _
    have h2 : (L : ℚ) ≤ ((64 * ⌈(L : ℚ) / 64⌉₊ : ℕ) : ℚ) := by
      push_cast
      linarith [(div_le_iff₀ (by norm_num : (0 : ℚ) < 64)).mp h1]
    have h3 : L ≤ 64 * ⌈(L : ℚ) / 64⌉₊ := by exact_mod_cast h2
    omega
  · apply Nat.ceil_le.mpr
    have h1 : L ≤ 64 * ((L + 63) / 64) := by omega
    have h2 : (L : ℚ) ≤ 64 * (((L + 63) / 64 : ℕ) : ℚ) := by exact_mod_cast h1
    rw [div_le_iff₀ (by norm_num : (0 : ℚ) < 64)]
    linarith

theorem sigma_bytes :
    sigma = [0x65, 0x78, 0x70, 0x61, 0x6e, 0x64, 0x20, 0x33,
      0x32, 0x2d, 0x62, 0x79, 0x74, 0x65, 0x20, 0x6b] := by
  decide

/-! ## Sequences of calls -/

theorem call_run_ctx (x : CHACHA20_ctx) (call : Call) :
    (call.run x).1 = advance x (blocks_of call.length) := by
  cases call <;>
    simp only [Call.run, Call.length, CHACHA20_decrypt_bytes, CHACHA20_encrypt_blocks,
      CHACHA20_decrypt_blocks, blocks_of, encrypt_bytes_ctx]

theorem run_calls_ctx (calls : List Call) :
    ∀ x : CHACHA20_ctx,
      run_calls x calls = advance x ((calls.map fun call => blocks_of call.length).sum) := by
  induction calls with
  | nil => intro x; rfl
  | cons call rest ih =>
    intro x
    rw [run_calls, ih, call_run_ctx, advance_add, List.map_cons, List.sum_cons]

theorem run_calls_input_ne (x : CHACHA20_ctx) (calls : List Call) (i : Fin 16)
    (h : i ≠ 12) : (run_calls x calls).input i = x.input i := by
  rw [run_calls_ctx, advance_input_ne _ _ _ h]

/-! ## Setup -/

theorem setup_eq (x1 x2 : CHACHA20_ctx) (k iv : List Nat) (kbits1 ivbits1 kbits2 ivbits2 : Nat) :
    CHACHA20_ivsetup (CHACHA20_keysetup x1 k kbits1 ivbits1) iv =
      CHACHA20_ivsetup (CHACHA20_keysetup x2 k kbits2 ivbits2) iv := by
  ext i
  fin_cases i <;> rfl

theorem setup_zero_key (x : CHACHA20_ctx) (kbits ivbits : Nat) :
    CHACHA20_ivsetup (CHACHA20_keysetup x (List.replicate 32 0) kbits ivbits)
      (List.replicate 12 0) = zero_key_ctx :=
  setup_eq x zero_ctx _ _ kbits ivbits 256 96

theorem zero_key_counter : (next_block zero_key_ctx).input 12 = 1 := by
  decide

theorem zero_key_block :
    chacha20_wordtobyte zero_key_ctx.input = rfc7539_a1_vector1 := by
  decide

theorem ivsetup_input_lt (y : CHACHA20_ctx) (iv : List Nat) (i : Fin 16) (h : i.val < 12) :
    (CHACHA20_ivsetup y iv).input i = y.input i := by
  have h12 : i ≠ 12 := fun e => by subst e; exact absurd h (by decide)
  have h13 : i ≠ 13 := fun e => by subst e; exact absurd h (by decide)
  have h14 : i ≠ 14 := fun e => by subst e; exact absurd h (by decide)
  have h15 : i ≠ 15 := fun e => by subst e; exact absurd h (by decide)
  simp only [CHACHA20_ivsetup]
  rw [set_input_ne _ _ _ _ h15, set_input_ne _ _ _ _ h14, set_input_ne _ _ _ _ h13,
    set_input_ne _ _ _ _ h12]

theorem ivsetup_input_ge (y z : CHACHA20_ctx) (iv : List Nat) (i : Fin 16) (h : 12 ≤ i.val) :
    (CHACHA20_ivsetup y iv).input i = (CHACHA20_ivsetup z iv).input i := by
  have h4 : i = 12 ∨ i = 13 ∨ i = 14 ∨ i = 15 := by
    rcases i with ⟨v, hv⟩
    simp only [Fin.mk.injEq, Fin.ext_iff] at h ⊢
    change 12 ≤ v at h
    change v = 12 ∨ v = 13 ∨ v = 14 ∨ v = 15
    omega
  rcases h4 with e | e | e | e <;> subst e <;> rfl

/-! ## Little-endian words -/

theorem sigma_words :
    U8TO32_LITTLE sigma 0 = 0x61707865 ∧ U8TO32_LITTLE sigma 4 = 0x3320646e ∧
    U8TO32_LITTLE sigma 8 = 0x79622d32 ∧ U8TO32_LITTLE sigma 12 = 0x6b206574 := by
  decide

theorem set_input (x : CHACHA20_ctx) (i j : Fin 16) (v : Nat) :
    (x.set i v).input j = if j = i then v else x.input j := by
  by_cases h : j = i
  · subst h
    rw [set_input_self, if_pos rfl]
  · rw [set_input_ne _ _ _ _ h, if_neg h]

theorem keysetup_constants (x : CHACHA20_ctx) (k : List Nat) (kbits ivbits : Nat) :
    (CHACHA20_keysetup x k kbits ivbits).input 0 = 0x61707865 ∧
    (CHACHA20_keysetup x k kbits ivbits).input 1 = 0x3320646e ∧
    (CHACHA20_keysetup x k kbits ivbits).input 2 = 0x79622d32 ∧
    (CHACHA20_keysetup x k kbits ivbits).input 3 = 0x6b206574 := by
  simp only [CHACHA20_keysetup, set_input]
  simp only [Fin.isValue, Fin.reduceEq, if_false, if_true, reduceIte]
  exact sigma_words

theorem lor_shiftLeft (a b i : Nat) (h : a < 2 ^ i) : a ||| (b <<< i) = a + 2 ^ i * b := by
  rw [Nat.shiftLeft_eq, Nat.mul_comm, Nat.lor_comm, ← Nat.mul_add_lt_is_or h, Nat.add_comm]

theorem getD_lt_256 (p : List Nat) (hb : ∀ b ∈ p, b < 256) (i : Nat) : p.getD i 0 < 256 := by
  by_cases h : i < p.length
  · rw [List.getD_eq_getElem _ _ h]
    exact hb _ (List.getElem_mem _)
  · rw [List.getD_eq_default _ _ (by omega)]
    decide

theorem U8TO32_LITTLE_eq (p : List Nat) (hb : ∀ b ∈ p, b < 256) (off : Nat) :
    U8TO32_LITTLE p off =
      p.getD off 0 + 2 ^ 8 * p.getD (off + 1) 0 + 2 ^ 16 * p.getD (off + 2) 0 +
        2 ^ 24 * p.getD (off + 3) 0 := by
  have h0 := getD_lt_256 p hb off
  have h1 := getD_lt_256 p hb (off + 1)
  have h2 := getD_lt_256 p hb (off + 2)
  unfold U8TO32_LITTLE
  rw [lor_shiftLeft _ _ 8 (by omega), lor_shiftLeft _ _ 16 (by omega),
    lor_shiftLeft _ _ 24 (by omega)]

theorem getD_eq_of_take_eq (p q : List Nat) (n i : Nat) (h : p.take n = q.take n)
    (hi : i < n) : p.getD i 0 = q.getD i 0 := by
  have h1 : (p.take n)[i]? = (q.take n)[i]? := by rw [h]
  rw [List.getElem?_take, List.getElem?_take, if_pos hi, if_pos hi] at h1
  rw [List.getD_eq_getElem?_getD, List.getD_eq_getElem?_getD, h1]

theorem U8TO32_LITTLE_congr (p q : List Nat) (n off : Nat) (h : p.take n = q.take n)
    (hoff : off + 3 < n) : U8TO32_LITTLE p off = U8TO32_LITTLE q off := by
  unfold U8TO32_LITTLE
  rw [getD_eq_of_take_eq p q n off h (by omega),
    getD_eq_of_take_eq p q n (off + 1) h (by omega),
    getD_eq_of_take_eq p q n (off + 2) h (by omega),
    getD_eq_of_take_eq p q n (off + 3) h (by omega)]

/-! ## Chunked encryption -/

theorem encrypt_bytes_fresh_getElem? (x : CHACHA20_ctx) (m : List Nat) (i : Nat) :
    (CHACHA20_encrypt_bytes x m (List.replicate m.length 0) m.length).2[i]? =
      if i < m.length then
        some (m.getD i 0 ^^^
          (chacha20_wordtobyte (advance x (i / 64)).input).getD (i % 64) 0)
      else none := by
  rw [encrypt_bytes_getElem?, List.length_replicate]
  by_cases h : i < m.length
  · rw [if_pos ⟨h, h⟩, if_pos h]
  · have h1 : ¬ (i < m.length ∧ i < m.length) := fun e => h e.1
    rw [if_neg h1, if_neg h, List.getElem?_eq_none (by rw [List.length_replicate]; omega)]

theorem encrypt_bytes_append_ctx (x : CHACHA20_ctx) (m1 m2 : List Nat)
    (h : m1.length % 64 = 0) :
    (CHACHA20_encrypt_bytes x (m1 ++ m2) (List.replicate (m1 ++ m2).length 0)
        (m1 ++ m2).length).1 =
      (CHACHA20_encrypt_bytes
        (CHACHA20_encrypt_bytes x m1 (List.replicate m1.length 0) m1.length).1
        m2 (List.replicate m2.length 0) m2.length).1 := by
  rw [encrypt_bytes_ctx, encrypt_bytes_ctx, encrypt_bytes_ctx, advance_add,
    List.length_append]
  congr 1
  omega

theorem encrypt_bytes_append_out (x : CHACHA20_ctx) (m1 m2 : List Nat)
    (h : m1.length % 64 = 0) :
    (CHACHA20_encrypt_bytes x (m1 ++ m2) (List.replicate (m1 ++ m2).length 0)
        (m1 ++ m2).length).2 =
      (CHACHA20_encrypt_bytes x m1 (List.replicate m1.length 0) m1.length).2 ++
      (CHACHA20_encrypt_bytes
        (CHACHA20_encrypt_bytes x m1 (List.replicate m1.length 0) m1.length).1
        m2 (List.replicate m2.length 0) m2.length).2 := by
  apply List.ext_getElem?
  intro i
  rw [List.getElem?_append, encrypt_bytes_length, List.length_replicate,
    encrypt_bytes_fresh_getElem?, encrypt_bytes_fresh_getElem?,
    encrypt_bytes_fresh_getElem?, encrypt_bytes_ctx, advance_add, List.length_append]
  by_cases h1 : i < m1.length
  · rw [if_pos h1, if_pos h1, if_pos (by omega), List.getD_append _ _ _ _ h1]
  · have h2 : (m1.length + 63) / 64 + (i - m1.length) / 64 = i / 64 := by omega
    have h3 : (i - m1.length) % 64 = i % 64 := by omega
    rw [if_neg h1, h2, h3]
    by_cases h4 : i < m1.length + m2.length
    · rw [if_pos h4, if_pos (by omega), List.getD_append_right _ _ _ _ (by omega)]
    · rw [if_neg h4, if_neg (by omega)]

theorem block_aligned_cons (chunk next : List Nat) (rest : List (List Nat))
    (h : block_aligned (chunk :: next :: rest)) :
    chunk.length % 64 = 0 ∧ block_aligned (next :: rest) := by
  unfold block_aligned at h ⊢
  rw [List.dropLast_cons₂] at h
  exact ⟨h chunk (List.mem_cons_self _ _), fun c hc => h c (List.mem_cons_of_mem _ hc)⟩

theorem encrypt_chunks_aligned (chunks : List (List Nat)) :
    ∀ x : CHACHA20_ctx, block_aligned chunks →
      encrypt_chunks x chunks =
        CHACHA20_encrypt_bytes x chunks.flatten (List.replicate chunks.flatten.length 0)
          chunks.flatten.length := by
  induction chunks with
  | nil =>
    intro x _
    simp [encrypt_chunks, CHACHA20_encrypt_bytes]
  | cons chunk rest ih =>
    intro x hal
    cases rest with
    | nil =>
      simp [encrypt_chunks, CHACHA20_encrypt_bytes]
    | cons next rest =>
      obtain ⟨h64, hrest⟩ := block_aligned_cons chunk next rest hal
      rw [encrypt_chunks, ih _ hrest, List.flatten_cons]
      apply Prod.ext
      · exact (encrypt_bytes_append_ctx x chunk _ h64).symm
      · exact (encrypt_bytes_append_out x chunk _ h64).symm

/-! ## Claims -/

/-- C1: for a context `x` whose counter word is a `u32`, a message `m` of
length `n` and an output buffer `c` of at least `n` bytes,
`CHACHA20_encrypt_bytes` leaves a buffer of the same length in which byte
`i < n` is `m[i] XOR K_j[i mod 64]` with `j = i / 64`, where `K_j` is the block
`chacha20_wordtobyte` produces from the words of `x` with `input[12]` replaced
by `(input[12] + j) mod 2^32`, and in which every byte at an index `>= n` is
the one `c` held before the call. -/
theorem encrypt_bytes_keystream (x : CHACHA20_ctx) (m c : List Nat)
    (hx : x.input 12 < 2 ^ 32) (hc : m.length ≤ c.length) :
    (CHACHA20_encrypt_bytes x m c m.length).2.length = c.length ∧
    (∀ (i : Nat) (h : i < m.length),
      (CHACHA20_encrypt_bytes x m c m.length).2[i]? =
        some (m[i] ^^^ (keystream_block x (i / 64)).getD (i % 64) 0)) ∧
    (∀ i : Nat, m.length ≤ i →
      (CHACHA20_encrypt_bytes x m c m.length).2[i]? = (c)[i]?) := by
  refine ⟨encrypt_bytes_length x m c _, ?_, ?_⟩
  · intro i h
    have h1 : i < m.length ∧ i < c.length := by omega
    rw [encrypt_bytes_getElem?, if_pos h1, advance_eq_with_counter x _ (Or.inr hx),
      keystream_block]
    simp [h]
  · intro i h
    have h1 : ¬ (i < m.length ∧ i < c.length) := by omega
    rw [encrypt_bytes_getElem?, if_neg h1]

theorem encrypt_bytes_keystream_witness :
    zero_key_ctx.input 12 < 2 ^ 32 ∧
    (List.replicate 70 1).length ≤ (List.replicate 72 9).length ∧
    (CHACHA20_encrypt_bytes zero_key_ctx (List.replicate 70 1) (List.replicate 72 9)
        70).2[71]? = some 9 :=
  ⟨by decide, by decide,
    (encrypt_bytes_keystream zero_key_ctx (List.replicate 70 1) (List.replicate 72 9)
      (by decide) (by decide)).2.2 71 (by decide)⟩

/-- C2: RFC 7539 appendix A.1, test vector #1.  After `CHACHA20_keysetup`
with a key of 32 zero bytes and `CHACHA20_ivsetup` with a nonce of 12 zero
bytes, on any prior context and with any size arguments,
`CHACHA20_encrypt_bytes` of 64 zero bytes into a 64-byte buffer yields exactly
the published ciphertext and leaves the counter word equal to 1. -/
theorem rfc7539_test_vector (x : CHACHA20_ctx) (kbits ivbits : Nat) (c : List Nat)
    (hc : c.length = 64) :
    (CHACHA20_encrypt_bytes
      (CHACHA20_ivsetup (CHACHA20_keysetup x (List.replicate 32 0) kbits ivbits)
        (List.replicate 12 0))
      (List.replicate 64 0) c 64).2 = rfc7539_a1_vector1 ∧
    (CHACHA20_encrypt_bytes
      (CHACHA20_ivsetup (CHACHA20_keysetup x (List.replicate 32 0) kbits ivbits)
        (List.replicate 12 0))
      (List.replicate 64 0) c 64).1.input 12 = 1 := by
  rw [setup_zero_key, encrypt_bytes_short _ _ _ 64 (by decide) (by decide)]
  dsimp only
  refine ⟨?_, zero_key_counter⟩
  rw [zero_key_block]
  apply List.ext_getElem?
  intro i
  rw [xor_loop_getElem?, hc]
  by_cases h : i < 64
  · rw [if_pos (by omega)]
    interval_cases i <;> rfl
  · rw [if_neg (by omega), List.getElem?_eq_none (by omega),
      List.getElem?_eq_none (by simp only [rfc7539_a1_vector1, List.length]; omega)]

theorem rfc7539_test_vector_witness :
    (List.replicate 64 0).length = 64 ∧
    (CHACHA20_encrypt_bytes
      (CHACHA20_ivsetup (CHACHA20_keysetup zero_ctx (List.replicate 32 0) 256 96)
        (List.replicate 12 0))
      (List.replicate 64 0) (List.replicate 64 0) 64).2 = rfc7539_a1_vector1 :=
  ⟨by decide, (rfc7539_test_vector zero_ctx 256 96 (List.replicate 64 0) (by decide)).1⟩

/-- C3: involution.  Two contexts set up with the same key and nonce (whatever
they held before): `CHACHA20_decrypt_bytes` on the second, applied to the
ciphertext `CHACHA20_encrypt_bytes` produced from `m` on the first, writes
exactly `m` to the first `m.length` bytes of its output buffer. -/
theorem decrypt_encrypt (x1 x2 : CHACHA20_ctx) (k iv : List Nat) (kbits ivbits : Nat)
    (m c p : List Nat) (hc : m.length ≤ c.length) (hp : m.length ≤ p.length) :
    (CHACHA20_decrypt_bytes (CHACHA20_ivsetup (CHACHA20_keysetup x2 k kbits ivbits) iv)
      (CHACHA20_encrypt_bytes (CHACHA20_ivsetup (CHACHA20_keysetup x1 k kbits ivbits) iv)
        m c m.length).2
      p m.length).2.take m.length = m := by
  rw [setup_eq x2 x1 k iv kbits ivbits kbits ivbits]
  apply List.ext_getElem?
  intro i
  rw [List.getElem?_take, CHACHA20_decrypt_bytes]
  by_cases h : i < m.length
  · have h1 : i < m.length ∧ i < p.length := by omega
    have h2 : i < m.length ∧ i < c.length := by omega
    rw [if_pos h, encrypt_bytes_getElem?, if_pos h1, List.getD_eq_getElem?_getD,
      encrypt_bytes_getElem?, if_pos h2, Option.getD_some, Nat.xor_cancel_right]
    simp [h]
  · rw [if_neg h, List.getElem?_eq_none (by omega)]

theorem decrypt_encrypt_witness :
    [1, 2, 3].length ≤ [0, 0, 0].length ∧ [1, 2, 3].length ≤ [7, 7, 7, 7].length ∧
    (CHACHA20_decrypt_bytes (CHACHA20_ivsetup (CHACHA20_keysetup zero_ctx [] 256 96) [])
      (CHACHA20_encrypt_bytes (CHACHA20_ivsetup (CHACHA20_keysetup zero_ctx [] 256 96) [])
        [1, 2, 3] [0, 0, 0] 3).2
      [7, 7, 7, 7] 3).2.take 3 = [1, 2, 3] :=
  ⟨by decide, by decide,
    decrypt_encrypt zero_ctx zero_ctx [] [] 256 96 [1, 2, 3] [0, 0, 0] [7, 7, 7, 7]
      (by decide) (by decide)⟩

/-- C4, the claim as written fails: a two-byte message encrypted as two
one-byte chunks does not give the ciphertext of the single call, because each
call starts a new keystream block. -/
theorem chunking_not_boundary_independent :
    (encrypt_chunks zero_key_ctx [[0], [0]]).2 = [0x76, 0x9f] ∧
    (CHACHA20_encrypt_bytes zero_key_ctx ([[0], [0]] : List (List Nat)).flatten
      (List.replicate 2 0) 2).2 = [0x76, 0xb8] ∧
    (encrypt_chunks zero_key_ctx [[0], [0]]).2 ≠
      (CHACHA20_encrypt_bytes zero_key_ctx ([[0], [0]] : List (List Nat)).flatten
        (List.replicate 2 0) 2).2 := by
  rw [encrypt_chunks, encrypt_chunks, encrypt_chunks,
    encrypt_bytes_short _ _ _ 2 (by decide) (by decide)]
  simp only [List.length_singleton, encrypt_bytes_short _ _ _ 1 (by decide) (by decide)]
  decide

/-- C4, amended: for every context and every split of a message into
consecutive chunks in which every chunk but the last has a length that is a
multiple of 64, encrypting the chunks with successive `CHACHA20_encrypt_bytes`
calls on one context and concatenating the outputs yields the same ciphertext
as encrypting the whole message in a single call from the same context. -/
theorem aligned_chunking (x : CHACHA20_ctx) (chunks : List (List Nat))
    (h : block_aligned chunks) :
    (encrypt_chunks x chunks).2 =
      (CHACHA20_encrypt_bytes x chunks.flatten (List.replicate chunks.flatten.length 0)
        chunks.flatten.length).2 := by
  rw [encrypt_chunks_aligned chunks x h]

theorem aligned_chunking_witness :
    block_aligned [List.replicate 64 1, [2, 3]] ∧
    (encrypt_chunks zero_key_ctx [List.replicate 64 1, [2, 3]]).2 =
      (CHACHA20_encrypt_bytes zero_key_ctx (List.replicate 64 1 ++ ([2, 3] ++ []))
        (List.replicate 66 0) 66).2 :=
  ⟨by simp [block_aligned],
    aligned_chunking zero_key_ctx [List.replicate 64 1, [2, 3]] (by simp [block_aligned])⟩

/-- C5: for a context whose counter word is a `u32` and every length `L`,
after `CHACHA20_encrypt_bytes` or `CHACHA20_decrypt_bytes` the counter word
`input[12]` is `(old input[12] + ceil(L/64)) mod 2^32`; after any sequence of
calls of lengths `L1..Lk` it is the initial value plus the sum of the
`ceil(Li/64)`, mod `2^32`, and no other word has changed. -/
theorem counter_advance (x : CHACHA20_ctx) (hx : x.input 12 < 2 ^ 32) :
    (∀ (m c : List Nat) (L : Nat),
      (CHACHA20_encrypt_bytes x m c L).1.input 12 = (x.input 12 + (L + 63) / 64) % 2 ^ 32) ∧
    (∀ (c m : List Nat) (L : Nat),
      (CHACHA20_decrypt_bytes x c m L).1.input 12 = (x.input 12 + (L + 63) / 64) % 2 ^ 32) ∧
    (∀ calls : List Call,
      (run_calls x calls).input 12 =
        (x.input 12 + (calls.map fun call => (call.length + 63) / 64).sum) % 2 ^ 32 ∧
      ∀ i : Fin 16, i ≠ 12 → (run_calls x calls).input i = x.input i) := by
  refine ⟨?_, ?_, ?_⟩
  · intro m c L
    rw [encrypt_bytes_ctx, advance_input_counter _ _ (Or.inr hx)]
  · intro c m L
    rw [CHACHA20_decrypt_bytes, encrypt_bytes_ctx, advance_input_counter _ _ (Or.inr hx)]
  · intro calls
    refine ⟨?_, fun i hi => run_calls_input_ne x calls i hi⟩
    rw [run_calls_ctx, advance_input_counter _ _ (Or.inr hx)]
    rfl

theorem counter_advance_witness :
    zero_ctx.input 12 < 2 ^ 32 ∧
    (CHACHA20_encrypt_bytes zero_ctx (List.replicate 65 0) (List.replicate 65 0) 65).1.input 12
      = 2 :=
  ⟨by decide,
    (counter_advance zero_ctx (by decide)).1 (List.replicate 65 0) (List.replicate 65 0) 65⟩

/-- C6: `CHACHA20_encrypt_bytes`, `CHACHA20_decrypt_bytes`,
`CHACHA20_encrypt_blocks` and `CHACHA20_decrypt_blocks` leave every state word
other than the counter word `input[12]` as it was: the constant words
`input[0..3]`, the key words `input[4..11]` and the nonce words
`input[13..15]`. -/
theorem streaming_frame (x : CHACHA20_ctx) (m c : List Nat) (n : Nat) (i : Fin 16)
    (hi : i ≠ 12) :
    (CHACHA20_encrypt_bytes x m c n).1.input i = x.input i ∧
    (CHACHA20_decrypt_bytes x m c n).1.input i = x.input i ∧
    (CHACHA20_encrypt_blocks x m c n).1.input i = x.input i ∧
    (CHACHA20_decrypt_blocks x m c n).1.input i = x.input i := by
  simp only [CHACHA20_decrypt_blocks, CHACHA20_encrypt_blocks, CHACHA20_decrypt_bytes,
    encrypt_bytes_input_ne _ _ _ _ i hi, and_self]

theorem streaming_frame_witness :
    (13 : Fin 16) ≠ 12 ∧
    (CHACHA20_encrypt_bytes zero_key_ctx [1, 2] [0, 0] 2).1.input 13 = zero_key_ctx.input 13 :=
  ⟨by decide, (streaming_frame zero_key_ctx [1, 2] [0, 0] 2 13 (by decide)).1⟩

/-- C7: for every 32-byte key, `CHACHA20_keysetup` sets `input[0..3]` to
`0x61707865, 0x3320646e, 0x79622d32, 0x6b206574` (the little-endian words of
`"expand 32-byte k"`) and `input[4+j]` to the little-endian value of the key
bytes `4j..4j+3` for `j = 0..7`; the result does not depend on the key-size
and IV-size arguments, and `input[12..15]` are left as they were. -/
theorem keysetup_words (x : CHACHA20_ctx) (k : List Nat) (kbits ivbits : Nat)
    (hk : k.length = 32) (hb : ∀ b ∈ k, b < 256) :
    ((CHACHA20_keysetup x k kbits ivbits).input 0 = 0x61707865 ∧
      (CHACHA20_keysetup x k kbits ivbits).input 1 = 0x3320646e ∧
      (CHACHA20_keysetup x k kbits ivbits).input 2 = 0x79622d32 ∧
      (CHACHA20_keysetup x k kbits ivbits).input 3 = 0x6b206574) ∧
    (∀ j : Fin 8,
      (CHACHA20_keysetup x k kbits ivbits).input ⟨4 + j.val, by omega⟩ =
        k.getD (4 * j.val) 0 + 2 ^ 8 * k.getD (4 * j.val + 1) 0 +
          2 ^ 16 * k.getD (4 * j.val + 2) 0 + 2 ^ 24 * k.getD (4 * j.val + 3) 0) ∧
    (∀ kbits2 ivbits2 : Nat,
      CHACHA20_keysetup x k kbits2 ivbits2 = CHACHA20_keysetup x k kbits ivbits) ∧
    (∀ i : Fin 16, 12 ≤ i.val →
      (CHACHA20_keysetup x k kbits ivbits).input i = x.input i) := by
  refine ⟨keysetup_constants x k kbits ivbits, ?_, fun _ _ => rfl, ?_⟩
  · intro j
    fin_cases j
    · exact U8TO32_LITTLE_eq k hb 0
    · exact U8TO32_LITTLE_eq k hb 4
    · exact U8TO32_LITTLE_eq k hb 8
    · exact U8TO32_LITTLE_eq k hb 12
    · exact U8TO32_LITTLE_eq k hb 16
    · exact U8TO32_LITTLE_eq k hb 20
    · exact U8TO32_LITTLE_eq k hb 24
    · exact U8TO32_LITTLE_eq k hb 28
  · intro i hi
    have h4 : i = 12 ∨ i = 13 ∨ i = 14 ∨ i = 15 := by
      rcases i with ⟨v, hv⟩
      simp only [Fin.mk.injEq, Fin.ext_iff] at hi ⊢
      change 12 ≤ v at hi
      change v = 12 ∨ v = 13 ∨ v = 14 ∨ v = 15
      omega
    rcases h4 with e | e | e | e <;> subst e <;> rfl

theorem keysetup_words_witness :
    (List.range 32).length = 32 ∧ (∀ b ∈ List.range 32, b < 256) ∧
    (CHACHA20_keysetup zero_ctx (List.range 32) 128 64).input ⟨4 + 1, by decide⟩ =
      4 + 2 ^ 8 * 5 + 2 ^ 16 * 6 + 2 ^ 24 * 7 :=
  ⟨by decide, by decide,
    (keysetup_words zero_ctx (List.range 32) 128 64 (by decide) (by decide)).2.1 1⟩

/-- C8, the claim as written fails: two nonce buffers that agree on their
first 8 bytes and differ in byte 8 give different contexts. -/
theorem ivsetup_byte8_matters :
    (List.replicate 12 0).take 8 = (List.replicate 8 0 ++ [1, 0, 0, 0]).take 8 ∧
    CHACHA20_ivsetup zero_ctx (List.replicate 12 0) ≠
      CHACHA20_ivsetup zero_ctx (List.replicate 8 0 ++ [1, 0, 0, 0]) := by
  refine ⟨by decide, fun h => ?_⟩
  have h15 := congrArg (fun y : CHACHA20_ctx => y.input 15) h
  revert h15
  decide

theorem U8TO32_LITTLE_inj (p q : List Nat) (hp : ∀ b ∈ p, b < 256) (hq : ∀ b ∈ q, b < 256)
    (off : Nat) (h : U8TO32_LITTLE p off = U8TO32_LITTLE q off) :
    p.getD off 0 = q.getD off 0 ∧ p.getD (off + 1) 0 = q.getD (off + 1) 0 ∧
    p.getD (off + 2) 0 = q.getD (off + 2) 0 ∧ p.getD (off + 3) 0 = q.getD (off + 3) 0 := by
  rw [U8TO32_LITTLE_eq p hp, U8TO32_LITTLE_eq q hq] at h
  have p0 := getD_lt_256 p hp off
  have p1 := getD_lt_256 p hp (off + 1)
  have p2 := getD_lt_256 p hp (off + 2)
  have p3 := getD_lt_256 p hp (off + 3)
  have q0 := getD_lt_256 q hq off
  have q1 := getD_lt_256 q hq (off + 1)
  have q2 := getD_lt_256 q hq (off + 2)
  have q3 := getD_lt_256 q hq (off + 3)
  refine ⟨?_, ?_, ?_, ?_⟩ <;> omega

theorem take_eq_of_getD_eq (p q : List Nat) (n : Nat) (hp : n ≤ p.length) (hq : n ≤ q.length)
    (h : ∀ i : Nat, i < n → p.getD i 0 = q.getD i 0) : p.take n = q.take n := by
  apply List.ext_getElem?
  intro i
  rw [List.getElem?_take, List.getElem?_take]
  by_cases hi : i < n
  · have hip : i < p.length := by omega
    have hiq : i < q.length := by omega
    have e := h i hi
    rw [List.getD_eq_getElem p 0 hip, List.getD_eq_getElem q 0 hiq] at e
    rw [if_pos hi, if_pos hi, List.getElem?_eq_getElem hip, List.getElem?_eq_getElem hiq, e]
  · rw [if_neg hi, if_neg hi]

/-- C8, amended: `CHACHA20_ivsetup` writes the counter word to zero and takes
the nonce from exactly 12 bytes of the nonce buffer (a 96-bit nonce):
`input[13]`, `input[14]`, `input[15]` receive the little-endian words of the
nonce bytes `0..3`, `4..7`, `8..11`, and `input[0..11]` stay as they were.  For
every context, any two nonce buffers that agree on their first 12 bytes give
equal contexts, so no byte at offset 12 or beyond influences the state; and
two buffers of at least 12 bytes that give equal contexts agree on their first
12 bytes, so each of the 12 bytes does. -/
theorem ivsetup_nonce (x : CHACHA20_ctx) (iv1 iv2 : List Nat) :
    (CHACHA20_ivsetup x iv1).input 12 = 0 ∧
    (∀ i : Fin 16, i.val < 12 → (CHACHA20_ivsetup x iv1).input i = x.input i) ∧
    (iv1.take 12 = iv2.take 12 → CHACHA20_ivsetup x iv1 = CHACHA20_ivsetup x iv2) ∧
    ((∀ b ∈ iv1, b < 256) →
      (CHACHA20_ivsetup x iv1).input 13 =
        iv1.getD 0 0 + 2 ^ 8 * iv1.getD 1 0 + 2 ^ 16 * iv1.getD 2 0 + 2 ^ 24 * iv1.getD 3 0 ∧
      (CHACHA20_ivsetup x iv1).input 14 =
        iv1.getD 4 0 + 2 ^ 8 * iv1.getD 5 0 + 2 ^ 16 * iv1.getD 6 0 + 2 ^ 24 * iv1.getD 7 0 ∧
      (CHACHA20_ivsetup x iv1).input 15 =
        iv1.getD 8 0 + 2 ^ 8 * iv1.getD 9 0 + 2 ^ 16 * iv1.getD 10 0 +
          2 ^ 24 * iv1.getD 11 0) ∧
    ((∀ b ∈ iv1, b < 256) → (∀ b ∈ iv2, b < 256) → 12 ≤ iv1.length → 12 ≤ iv2.length →
      CHACHA20_ivsetup x iv1 = CHACHA20_ivsetup x iv2 → iv1.take 12 = iv2.take 12) := by
  refine ⟨rfl, fun i hi => ivsetup_input_lt x iv1 i hi, ?_, ?_, ?_⟩
  · intro h
    unfold CHACHA20_ivsetup
    rw [U8TO32_LITTLE_congr iv1 iv2 12 0 h (by decide),
      U8TO32_LITTLE_congr iv1 iv2 12 4 h (by decide),
      U8TO32_LITTLE_congr iv1 iv2 12 8 h (by decide)]
  · intro hb
    exact ⟨U8TO32_LITTLE_eq iv1 hb 0, U8TO32_LITTLE_eq iv1 hb 4, U8TO32_LITTLE_eq iv1 hb 8⟩
  · intro hb1 hb2 hl1 hl2 h
    have w13 : U8TO32_LITTLE iv1 0 = U8TO32_LITTLE iv2 0 :=
      congrArg (fun y : CHACHA20_ctx => y.input 13) h
    have w14 : U8TO32_LITTLE iv1 4 = U8TO32_LITTLE iv2 4 :=
      congrArg (fun y : CHACHA20_ctx => y.input 14) h
    have w15 : U8TO32_LITTLE iv1 8 = U8TO32_LITTLE iv2 8 :=
      congrArg (fun y : CHACHA20_ctx => y.input 15) h
    obtain ⟨e0, e1, e2, e3⟩ := U8TO32_LITTLE_inj iv1 iv2 hb1 hb2 0 w13
    obtain ⟨e4, e5, e6, e7⟩ := U8TO32_LITTLE_inj iv1 iv2 hb1 hb2 4 w14
    obtain ⟨e8, e9, e10, e11⟩ := U8TO32_LITTLE_inj iv1 iv2 hb1 hb2 8 w15
    apply take_eq_of_getD_eq iv1 iv2 12 hl1 hl2
    intro i hi
    interval_cases i
    · exact e0
    · exact e1
    · exact e2
    · exact e3
    · exact e4
    · exact e5
    · exact e6
    · exact e7
    · exact e8
    · exact e9
    · exact e10
    · exact e11

theorem ivsetup_nonce_witness :
    (∀ b ∈ [0, 1, 2, 3, 4, 5, 6, 7, 8, 9, 10, 11, 99], b < 256) ∧
    (∀ b ∈ [0, 1, 2, 3, 4, 5, 6, 7, 8, 9, 10, 11], b < 256) ∧
    12 ≤ [0, 1, 2, 3, 4, 5, 6, 7, 8, 9, 10, 11, 99].length ∧
    12 ≤ [0, 1, 2, 3, 4, 5, 6, 7, 8, 9, 10, 11].length ∧
    [0, 1, 2, 3, 4, 5, 6, 7, 8, 9, 10, 11, 99].take 12 =
      [0, 1, 2, 3, 4, 5, 6, 7, 8, 9, 10, 11].take 12 ∧
    (CHACHA20_ivsetup zero_ctx [0, 1, 2, 3, 4, 5, 6, 7, 8, 9, 10, 11, 99]).input 15 =
      8 + 2 ^ 8 * 9 + 2 ^ 16 * 10 + 2 ^ 24 * 11 ∧
    CHACHA20_ivsetup zero_ctx [0, 1, 2, 3, 4, 5, 6, 7, 8, 9, 10, 11, 99] =
      CHACHA20_ivsetup zero_ctx [0, 1, 2, 3, 4, 5, 6, 7, 8, 9, 10, 11] :=
  ⟨by decide, by decide, by decide, by decide, by decide,
    ((ivsetup_nonce zero_ctx [0, 1, 2, 3, 4, 5, 6, 7, 8, 9, 10, 11, 99]
      [0, 1, 2, 3, 4, 5, 6, 7, 8, 9, 10, 11]).2.2.2.1 (by decide)).2.2,
    (ivsetup_nonce zero_ctx [0, 1, 2, 3, 4, 5, 6, 7, 8, 9, 10, 11, 99]
      [0, 1, 2, 3, 4, 5, 6, 7, 8, 9, 10, 11]).2.2.1 (by decide)⟩

/-- C9: nonce reset.  On a context set up with `(k, n)` and then used for any
sequence of encrypt and decrypt calls, `CHACHA20_ivsetup` with `n'` gives
exactly the sixteen words of `CHACHA20_keysetup(k)` followed by
`CHACHA20_ivsetup(n')` on the starting context; in particular the counter is
back to zero. -/
theorem nonce_reset (x0 : CHACHA20_ctx) (k n n' : List Nat) (kbits ivbits : Nat)
    (calls : List Call) :
    CHACHA20_ivsetup
        (run_calls (CHACHA20_ivsetup (CHACHA20_keysetup x0 k kbits ivbits) n) calls) n' =
      CHACHA20_ivsetup (CHACHA20_keysetup x0 k kbits ivbits) n' ∧
    (CHACHA20_ivsetup
        (run_calls (CHACHA20_ivsetup (CHACHA20_keysetup x0 k kbits ivbits) n) calls)
        n').input 12 = 0 := by
  refine ⟨?_, rfl⟩
  ext i
  by_cases h : i.val < 12
  · have h12 : i ≠ 12 := fun e => by subst e; exact absurd h (by decide)
    rw [ivsetup_input_lt _ _ _ h, ivsetup_input_lt _ _ _ h, run_calls_input_ne _ _ _ h12,
      ivsetup_input_lt _ _ _ h]
  · exact ivsetup_input_ge _ _ _ _ (by omega)

/-- C10: with length 0, `CHACHA20_encrypt_bytes` returns the context (all
sixteen words, the counter included) and the output buffer it was given. -/
theorem encrypt_bytes_zero_length (x : CHACHA20_ctx) (m c : List Nat) :
    CHACHA20_encrypt_bytes x m c 0 = (x, c) := by
  simp [CHACHA20_encrypt_bytes]

/-- C11: determinism.  Two contexts with arbitrary prior contents, set up with
the same key and nonce (whatever size arguments are passed), encrypt the same
message to the same ciphertext bytes, whatever the output buffers held, and
end in the same context. -/
theorem setup_encrypt_deterministic (x1 x2 : CHACHA20_ctx) (k iv : List Nat)
    (kbits1 ivbits1 kbits2 ivbits2 : Nat) (m c1 c2 : List Nat)
    (h1 : m.length ≤ c1.length) (h2 : m.length ≤ c2.length) :
    (CHACHA20_encrypt_bytes (CHACHA20_ivsetup (CHACHA20_keysetup x1 k kbits1 ivbits1) iv)
        m c1 m.length).2.take m.length =
      (CHACHA20_encrypt_bytes (CHACHA20_ivsetup (CHACHA20_keysetup x2 k kbits2 ivbits2) iv)
        m c2 m.length).2.take m.length ∧
    (CHACHA20_encrypt_bytes (CHACHA20_ivsetup (CHACHA20_keysetup x1 k kbits1 ivbits1) iv)
        m c1 m.length).1 =
      (CHACHA20_encrypt_bytes (CHACHA20_ivsetup (CHACHA20_keysetup x2 k kbits2 ivbits2) iv)
        m c2 m.length).1 := by
  rw [setup_eq x1 x2 k iv kbits1 ivbits1 kbits2 ivbits2]
  refine ⟨?_, by rw [encrypt_bytes_ctx, encrypt_bytes_ctx]⟩
  apply List.ext_getElem?
  intro i
  rw [List.getElem?_take, List.getElem?_take]
  by_cases h : i < m.length
  · rw [if_pos h, if_pos h, encrypt_bytes_getElem?, encrypt_bytes_getElem?,
      if_pos ⟨h, by omega⟩, if_pos ⟨h, by omega⟩]
  · rw [if_neg h, if_neg h]

theorem setup_encrypt_deterministic_witness :
    [1, 2, 3].length ≤ [0, 0, 0].length ∧ [1, 2, 3].length ≤ [9, 9, 9, 9].length ∧
    (CHACHA20_encrypt_bytes (CHACHA20_ivsetup (CHACHA20_keysetup zero_ctx [5] 256 96) [6])
        [1, 2, 3] [0, 0, 0] 3).1 =
      (CHACHA20_encrypt_bytes (CHACHA20_ivsetup (CHACHA20_keysetup zero_key_ctx [5] 128 64) [6])
        [1, 2, 3] [9, 9, 9, 9] 3).1 :=
  ⟨by decide, by decide,
    (setup_encrypt_deterministic zero_ctx zero_key_ctx [5] [6] 256 96 128 64 [1, 2, 3]
      [0, 0, 0] [9, 9, 9, 9] (by decide) (by decide)).2⟩

/-- C12: keystream locality.  Two messages of the same length that differ only
at byte index `j`, encrypted from the same context: the ciphertexts agree at
every index other than `j`, and at `j` the exclusive-or of the two ciphertext
bytes is the exclusive-or of the two plaintext bytes. -/
theorem keystream_locality (x : CHACHA20_ctx) (m m' c : List Nat) (j : Nat)
    (hlen : m'.length = m.length) (hc : m.length ≤ c.length) (hj : j < m.length)
    (hdiff : ∀ i : Nat, i ≠ j → m.getD i 0 = m'.getD i 0) :
    (∀ i : Nat, i ≠ j →
      (CHACHA20_encrypt_bytes x m c m.length).2[i]? =
        (CHACHA20_encrypt_bytes x m' c m'.length).2[i]?) ∧
    (CHACHA20_encrypt_bytes x m c m.length).2.getD j 0 ^^^
        (CHACHA20_encrypt_bytes x m' c m'.length).2.getD j 0 =
      m.getD j 0 ^^^ m'.getD j 0 := by
  rw [hlen]
  constructor
  · intro i hi
    rw [encrypt_bytes_getElem?, encrypt_bytes_getElem?, hdiff i hi]
  · rw [List.getD_eq_getElem?_getD, List.getD_eq_getElem?_getD (CHACHA20_encrypt_bytes _ _ _ _).2,
      encrypt_bytes_getElem?, encrypt_bytes_getElem?, if_pos ⟨hj, by omega⟩,
      if_pos ⟨hj, by omega⟩, Option.getD_some, Option.getD_some, Nat.xor_assoc,
      Nat.xor_comm (m'.getD j 0), ← Nat.xor_assoc _ _ (m'.getD j 0), Nat.xor_self,
      Nat.zero_xor]

theorem keystream_locality_witness :
    [1, 2, 7].length = [1, 2, 3].length ∧ [1, 2, 3].length ≤ [0, 0, 0].length ∧
    2 < [1, 2, 3].length ∧
    (∀ i : Nat, i ≠ 2 → [1, 2, 3].getD i 0 = [1, 2, 7].getD i 0) ∧
    (CHACHA20_encrypt_bytes zero_key_ctx [1, 2, 3] [0, 0, 0] 3).2.getD 2 0 ^^^
        (CHACHA20_encrypt_bytes zero_key_ctx [1, 2, 7] [0, 0, 0] 3).2.getD 2 0 =
      3 ^^^ 7 :=
  have hd : ∀ i : Nat, i ≠ 2 → [1, 2, 3].getD i 0 = [1, 2, 7].getD i 0 := by
    intro i hi
    match i, hi with
    | 0, _ => rfl
    | 1, _ => rfl
    | 2, h => exact absurd rfl h
    | i + 3, _ => rfl
  ⟨by decide, by decide, by decide, hd,
    (keystream_locality zero_key_ctx [1, 2, 3] [1, 2, 7] [0, 0, 0] 2 (by decide) (by decide)
      (by decide) hd).2⟩

/-- C13: block/byte equivalence.  `CHACHA20_encrypt_blocks(ctx, buf, n)` is
`CHACHA20_encrypt_bytes(ctx, buf, n*64)` with the product taken in `u32`:
same output, same resulting context; where `n*64` fits in a `u32` the product
is `n*64` itself.  Likewise `CHACHA20_decrypt_blocks` and
`CHACHA20_decrypt_bytes`. -/
theorem blocks_bytes_equivalence (ctx : CHACHA20_ctx) (plaintext ciphertext : List Nat)
    (n : Nat) :
    CHACHA20_encrypt_blocks ctx plaintext ciphertext n =
      CHACHA20_encrypt_bytes ctx plaintext ciphertext ((n * 64) % 2 ^ 32) ∧
    CHACHA20_decrypt_blocks ctx ciphertext plaintext n =
      CHACHA20_decrypt_bytes ctx ciphertext plaintext ((n * 64) % 2 ^ 32) ∧
    (n * 64 < 2 ^ 32 →
      CHACHA20_encrypt_blocks ctx plaintext ciphertext n =
        CHACHA20_encrypt_bytes ctx plaintext ciphertext (n * 64) ∧
      CHACHA20_decrypt_blocks ctx ciphertext plaintext n =
        CHACHA20_decrypt_bytes ctx ciphertext plaintext (n * 64)) := by
  refine ⟨rfl, rfl, fun h => ?_⟩
  unfold CHACHA20_encrypt_blocks CHACHA20_decrypt_blocks CHACHA20_BLOCKLENGTH
  rw [Nat.mod_eq_of_lt h]
  exact ⟨rfl, rfl⟩

theorem blocks_bytes_equivalence_witness :
    3 * 64 < 2 ^ 32 ∧
    CHACHA20_encrypt_blocks zero_key_ctx (List.replicate 192 1) (List.replicate 192 0) 3 =
      CHACHA20_encrypt_bytes zero_key_ctx (List.replicate 192 1) (List.replicate 192 0)
        (3 * 64) :=
  ⟨by decide,
    ((blocks_bytes_equivalence zero_key_ctx (List.replicate 192 1) (List.replicate 192 0)
      3).2.2 (by decide)).1⟩

/-- C18: block-count overflow.  The byte length of `CHACHA20_encrypt_blocks`
is `blocks*64` reduced mod `2^32`: with `blocks = 2^26` the call returns the
context and the output buffer untouched, and with `blocks = 2^26 + 1` it is
the call for 64 bytes, which advances the counter by one block. -/
theorem encrypt_blocks_overflow (ctx : CHACHA20_ctx) (plaintext ciphertext : List Nat) :
    CHACHA20_encrypt_blocks ctx plaintext ciphertext (2 ^ 26) = (ctx, ciphertext) ∧
    CHACHA20_encrypt_blocks ctx plaintext ciphertext (2 ^ 26 + 1) =
      CHACHA20_encrypt_bytes ctx plaintext ciphertext 64 ∧
    (CHACHA20_encrypt_blocks ctx plaintext ciphertext (2 ^ 26 + 1)).1 = next_block ctx := by
  have h0 : (2 ^ 26 * CHACHA20_BLOCKLENGTH) % 2 ^ 32 = 0 := by decide
  have h1 : ((2 ^ 26 + 1) * CHACHA20_BLOCKLENGTH) % 2 ^ 32 = 64 := by decide
  unfold CHACHA20_encrypt_blocks
  rw [h0, h1]
  refine ⟨by simp [CHACHA20_encrypt_bytes], rfl, ?_⟩
  rw [encrypt_bytes_short _ _ _ 64 (by decide) (by decide)]

/-- C19: block-aligned chunking.  For messages `m1`, `m2` with the length of
`m1` a multiple of 64, `CHACHA20_encrypt_bytes` on `m1 ++ m2` yields the same
ciphertext and the same final context as `CHACHA20_encrypt_bytes` on `m1`
followed by `CHACHA20_encrypt_bytes` on `m2` with the context the first call
left. -/
theorem aligned_split (x : CHACHA20_ctx) (m1 m2 : List Nat) (h : m1.length % 64 = 0) :
    (CHACHA20_encrypt_bytes x (m1 ++ m2) (List.replicate (m1 ++ m2).length 0)
        (m1 ++ m2).length).2 =
      (CHACHA20_encrypt_bytes x m1 (List.replicate m1.length 0) m1.length).2 ++
      (CHACHA20_encrypt_bytes
        (CHACHA20_encrypt_bytes x m1 (List.replicate m1.length 0) m1.length).1
        m2 (List.replicate m2.length 0) m2.length).2 ∧
    (CHACHA20_encrypt_bytes x (m1 ++ m2) (List.replicate (m1 ++ m2).length 0)
        (m1 ++ m2).length).1 =
      (CHACHA20_encrypt_bytes
        (CHACHA20_encrypt_bytes x m1 (List.replicate m1.length 0) m1.length).1
        m2 (List.replicate m2.length 0) m2.length).1 :=
  ⟨encrypt_bytes_append_out x m1 m2 h, encrypt_bytes_append_ctx x m1 m2 h⟩

theorem aligned_split_witness :
    (List.replicate 128 5).length % 64 = 0 ∧
    (CHACHA20_encrypt_bytes zero_key_ctx (List.replicate 128 5 ++ [1, 2, 3])
        (List.replicate (List.replicate 128 5 ++ [1, 2, 3]).length 0)
        (List.replicate 128 5 ++ [1, 2, 3]).length).1 =
      (CHACHA20_encrypt_bytes
        (CHACHA20_encrypt_bytes zero_key_ctx (List.replicate 128 5)
          (List.replicate (List.replicate 128 5).length 0) (List.replicate 128 5).length).1
        [1, 2, 3] (List.replicate [1, 2, 3].length 0) [1, 2, 3].length).1 :=
  ⟨by simp, (aligned_split zero_key_ctx (List.replicate 128 5) [1, 2, 3] (by simp)).2⟩

/-! ## The quarter round -/

theorem PLUS_lt (v w : Nat) : PLUS v w < 2 ^ 32 :=
  Nat.mod_lt _ (by decide)

theorem XOR_lt (v w : Nat) (hv : v < 2 ^ 32) (hw : w < 2 ^ 32) : XOR v w < 2 ^ 32 :=
  Nat.xor_lt_two_pow hv hw

theorem ROTL32_eq_rotate_left (v n : Nat) (hv : v < 2 ^ 32) (hn : n ≤ 32) :
    ROTL32 v n = rotate_left v n := by
  have h32 : (2 : Nat) ^ 32 = 2 ^ (32 - n) * 2 ^ n := by
    rw [← Nat.pow_add]
    congr 1
    omega
  have hlt : v / 2 ^ (32 - n) < 2 ^ n := by
    apply Nat.div_lt_of_lt_mul
    rw [← h32]
    exact hv
  unfold ROTL32 rotate_left
  rw [Nat.shiftLeft_eq, Nat.shiftRight_eq_div_pow, h32, Nat.mul_mod_mul_right,
    Nat.mul_comm (v % 2 ^ (32 - n)), Nat.mul_add_lt_is_or hlt]

theorem ROTL32_testBit (v n i : Nat) (hv : v < 2 ^ 32) (hn : n ≤ 32) (hi : i < 32) :
    (ROTL32 v n).testBit i = v.testBit ((i + (32 - n)) % 32) := by
  unfold ROTL32
  rw [Nat.testBit_or, Nat.testBit_mod_two_pow, Nat.testBit_shiftLeft, Nat.testBit_shiftRight]
  by_cases h : n ≤ i
  · have h1 : v.testBit (32 - n + i) = false :=
      Nat.testBit_lt_two_pow (Nat.lt_of_lt_of_le hv (Nat.pow_le_pow_right (by decide) (by omega)))
    have h2 : (i + (32 - n)) % 32 = i - n := by omega
    simp [hi, h, h1, h2]
  · have h2 : (i + (32 - n)) % 32 = 32 - n + i := by omega
    simp [h, h2]

theorem ROTL32_lt (v n : Nat) (hv : v < 2 ^ 32) : ROTL32 v n < 2 ^ 32 := by
  unfold ROTL32
  apply Nat.or_lt_two_pow (Nat.mod_lt _ (by decide))
  rw [Nat.shiftRight_eq_div_pow]
  exact Nat.lt_of_le_of_lt (Nat.div_le_self _ _) hv

theorem round_body_counted_eq (r : Regs) (n : Nat) :
    round_body_counted r n = (round_body r, n + 8) := rfl

theorem round_loop_counted_eq (r : Regs) (n : Nat) :
    round_loop_counted 20 r n = (round_loop 20 r, n + 80) := by
  simp only [round_loop_counted, round_loop, round_body_counted_eq]

/-- C15: for all 32-bit words `a, b, c, d`, `QUARTERROUND` computes, with
addition mod `2^32` and rotation of a 32-bit word to the left,
`a += b; d = rotl(d^a,16); c += d; b = rotl(b^c,12); a += b; d = rotl(d^a,8);
c += d; b = rotl(b^c,7)`, and it maps the vector of RFC 7539 section 2.1.1 to
the published result. -/
theorem quarterround_arx (a b c d : Nat) (ha : a < 2 ^ 32) (hb : b < 2 ^ 32)
    (hc : c < 2 ^ 32) (hd : d < 2 ^ 32) :
    QUARTERROUND a b c d = quarter_round a b c d ∧
    QUARTERROUND 0x11111111 0x01020304 0x9b8d6f43 0x01234567 =
      (0xea2a92f4, 0xcb1cf8ce, 0x4581472e, 0x5881c4bb) := by
  refine ⟨?_, by decide⟩
  have h1 : XOR d (PLUS a b) < 2 ^ 32 := XOR_lt _ _ hd (PLUS_lt _ _)
  have h2 : XOR b (PLUS c (ROTL32 (XOR d (PLUS a b)) 16)) < 2 ^ 32 :=
    XOR_lt _ _ hb (PLUS_lt _ _)
  have h3 : XOR (ROTL32 (XOR d (PLUS a b)) 16)
      (PLUS (PLUS a b) (ROTL32 (XOR b (PLUS c (ROTL32 (XOR d (PLUS a b)) 16))) 12)) < 2 ^ 32 :=
    XOR_lt _ _ (ROTL32_lt _ _ h1) (PLUS_lt _ _)
  have h4 : XOR (ROTL32 (XOR b (PLUS c (ROTL32 (XOR d (PLUS a b)) 16))) 12)
      (PLUS (PLUS c (ROTL32 (XOR d (PLUS a b)) 16))
        (ROTL32 (XOR (ROTL32 (XOR d (PLUS a b)) 16)
          (PLUS (PLUS a b) (ROTL32 (XOR b (PLUS c (ROTL32 (XOR d (PLUS a b)) 16))) 12))) 8))
      < 2 ^ 32 :=
    XOR_lt _ _ (ROTL32_lt _ _ h2) (PLUS_lt _ _)
  simp only [QUARTERROUND, quarter_round, ROTATE]
  rw [ROTL32_eq_rotate_left _ 7 h4 (by decide), ROTL32_eq_rotate_left _ 8 h3 (by decide),
    ROTL32_eq_rotate_left _ 12 h2 (by decide), ROTL32_eq_rotate_left _ 16 h1 (by decide)]
  rfl

theorem quarterround_arx_witness :
    0x11111111 < 2 ^ 32 ∧ 0x01020304 < 2 ^ 32 ∧ 0x9b8d6f43 < 2 ^ 32 ∧ 0x01234567 < 2 ^ 32 ∧
    QUARTERROUND 0x11111111 0x01020304 0x9b8d6f43 0x01234567 =
      quarter_round 0x11111111 0x01020304 0x9b8d6f43 0x01234567 :=
  ⟨by decide, by decide, by decide, by decide,
    (quarterround_arx 0x11111111 0x01020304 0x9b8d6f43 0x01234567 (by decide) (by decide)
      (by decide) (by decide)).1⟩

/-- C16, the claim as written fails: one pass of the round loop of
`chacha20_wordtobyte` applies `QUARTERROUND` 80 times, not 20. -/
theorem mixing_pass_is_not_20_quarter_rounds :
    (round_loop_counted 20 (Regs.ofFun zero_key_ctx.input) 0).2 = 80 ∧
    (round_loop_counted 20 (Regs.ofFun zero_key_ctx.input) 0).2 ≠ 20 := by
  decide

/-- C16, amended: a full mixing pass is 20 rounds, which is 80 quarter-round
applications: for every 16-word state, one call of `chacha20_wordtobyte`
applies `QUARTERROUND` exactly 80 times in total (10 passes through the loop
body, each of 4 quarter rounds on the columns followed by 4 on the diagonals)
before the feed-forward addition. -/
theorem mixing_pass_quarter_rounds (r : Regs) (n : Nat) :
    round_loop_counted 20 r 0 = (round_loop 20 r, 80) ∧
    round_body_counted r n = (round_body r, n + 8) ∧
    round_loop 20 r = Nat.iterate round_body 10 r := by
  refine ⟨?_, rfl, rfl⟩
  rw [round_loop_counted_eq]

/-! ## The block generator -/

theorem ofFun_toFun (s : Fin 16 → Nat) : (Regs.ofFun s).toFun = s := by
  funext i
  fin_cases i <;> rfl

theorem toFun_ofFun (r : Regs) : Regs.ofFun r.toFun = r := rfl

theorem round_body_toFun (r : Regs) : (round_body r).toFun = double_round r.toFun := by
  funext i
  fin_cases i <;> rfl

theorem iterate_round_body_toFun (n : Nat) (r : Regs) :
    (Nat.iterate round_body n r).toFun = Nat.iterate double_round n r.toFun := by
  induction n with
  | zero => rfl
  | succ n ih =>
    rw [Function.iterate_succ_apply', Function.iterate_succ_apply', round_body_toFun, ih]

theorem round_loop_toFun (input : Fin 16 → Nat) :
    (round_loop 20 (Regs.ofFun input)).toFun = mixing_pass input := by
  have h : round_loop 20 (Regs.ofFun input) = Nat.iterate round_body 10 (Regs.ofFun input) := rfl
  rw [h, iterate_round_body_toFun, ofFun_toFun, mixing_pass]

theorem U32TO8_LITTLE_eq_little_endian (v : Nat) : U32TO8_LITTLE v = little_endian v := by
  simp only [U32TO8_LITTLE, U32TO32_LITTLE, little_endian, Nat.shiftRight_eq_div_pow]

theorem wordtobyte_word (input : Fin 16 → Nat) (j : Fin 16) :
    ((chacha20_wordtobyte input).drop (4 * j.val)).take 4 =
      U32TO8_LITTLE (PLUS ((round_loop 20 (Regs.ofFun input)).toFun j) (input j)) := by
  simp only [chacha20_wordtobyte, Regs.ofFun]
  generalize round_loop 20 _ = r
  simp only [U32TO8_LITTLE, List.cons_append, List.nil_append, List.append_assoc]
  fin_cases j <;> rfl

/-- C14: for every 16-word input, `chacha20_wordtobyte` outputs exactly 64
bytes in which bytes `4j..4j+3` are the little-endian encoding (least
significant byte first) of `(P(input)[j] + input[j]) mod 2^32` for
`j = 0..15`, where `P` is ten iterations of the double round of quarter rounds
on the word indices `(0,4,8,12)`, `(1,5,9,13)`, `(2,6,10,14)`, `(3,7,11,15)`,
`(0,5,10,15)`, `(1,6,11,12)`, `(2,7,8,13)`, `(3,4,9,14)`.  The input is an
argument that the function only reads. -/
theorem wordtobyte_block (input : Fin 16 → Nat) :
    (chacha20_wordtobyte input).length = 64 ∧
    ∀ j : Fin 16,
      ((chacha20_wordtobyte input).drop (4 * j.val)).take 4 =
        little_endian ((mixing_pass input j + input j) % 2 ^ 32) := by
  refine ⟨chacha20_wordtobyte_length input, fun j => ?_⟩
  rw [wordtobyte_word, U32TO8_LITTLE_eq_little_endian, round_loop_toFun, PLUS]

/-! ## The quarter round is invertible -/

theorem minus32_lt (v w : Nat) : minus32 v w < 2 ^ 32 :=
  Nat.mod_lt _ (by decide)

theorem minus32_PLUS (a b : Nat) (ha : a < 2 ^ 32) (hb : b < 2 ^ 32) :
    minus32 (PLUS a b) b = a := by
  unfold minus32 PLUS
  omega

theorem PLUS_minus32 (a b : Nat) (ha : a < 2 ^ 32) (hb : b < 2 ^ 32) :
    PLUS (minus32 a b) b = a := by
  unfold minus32 PLUS
  omega

theorem rotate_right_lt (v n : Nat) (hv : v < 2 ^ 32)
    (hn : n = 16 ∨ n = 12 ∨ n = 8 ∨ n = 7) : rotate_right v n < 2 ^ 32 := by
  unfold rotate_right
  rcases hn with h | h | h | h <;> subst h <;> norm_num <;> omega

theorem rotate_right_ROTL32 (v n : Nat) (hv : v < 2 ^ 32)
    (hn : n = 16 ∨ n = 12 ∨ n = 8 ∨ n = 7) : rotate_right (ROTL32 v n) n = v := by
  rw [ROTL32_eq_rotate_left v n hv (by omega)]
  unfold rotate_right rotate_left
  rcases hn with h | h | h | h <;> subst h <;> norm_num <;> omega

theorem rotate_core (v A B : Nat) (hv : v < A * B) :
    (v / A + v % A * B) % B = v / A ∧ (v / A + v % A * B) / B = v % A := by
  have h1 : v / A < B := Nat.div_lt_of_lt_mul hv
  have hB : 0 < B := Nat.lt_of_le_of_lt (Nat.zero_le _) h1
  constructor
  · rw [Nat.add_mul_mod_self_right, Nat.mod_eq_of_lt h1]
  · rw [Nat.add_mul_div_right _ _ hB, Nat.div_eq_of_lt h1, Nat.zero_add]

theorem ROTL32_rotate_right (v n : Nat) (hv : v < 2 ^ 32)
    (hn : n = 16 ∨ n = 12 ∨ n = 8 ∨ n = 7) : ROTL32 (rotate_right v n) n = v := by
  have h32 : (2 : Nat) ^ 32 = 2 ^ n * 2 ^ (32 - n) := by
    rw [← Nat.pow_add]
    congr 1
    omega
  rw [ROTL32_eq_rotate_left _ n (rotate_right_lt v n hv hn) (by omega)]
  unfold rotate_right rotate_left
  obtain ⟨e1, e2⟩ := rotate_core v (2 ^ n) (2 ^ (32 - n)) (h32 ▸ hv)
  rw [e1, e2]
  exact Nat.div_add_mod' v (2 ^ n)

theorem undo_rotate (z x r : Nat) (hr : r = 16 ∨ r = 12 ∨ r = 8 ∨ r = 7)
    (hz : z < 2 ^ 32) (hx : x < 2 ^ 32) :
    rotate_right (ROTL32 (z ^^^ x) r) r ^^^ x = z := by
  rw [rotate_right_ROTL32 _ r (Nat.xor_lt_two_pow hz hx) hr, Nat.xor_cancel_right]

theorem redo_rotate (z x r : Nat) (hr : r = 16 ∨ r = 12 ∨ r = 8 ∨ r = 7)
    (hz : z < 2 ^ 32) :
    ROTL32 (rotate_right z r ^^^ x ^^^ x) r = z := by
  rw [Nat.xor_cancel_right, ROTL32_rotate_right z r hz hr]

theorem quarter_round_inverse_QUARTERROUND (a b c d : Nat) (ha : a < 2 ^ 32)
    (hb : b < 2 ^ 32) (hc : c < 2 ^ 32) (hd : d < 2 ^ 32) :
    quarter_round_inverse (QUARTERROUND a b c d).1 (QUARTERROUND a b c d).2.1
      (QUARTERROUND a b c d).2.2.1 (QUARTERROUND a b c d).2.2.2 = (a, b, c, d) := by
  simp only [QUARTERROUND, quarter_round_inverse, ROTATE, XOR]
  have ha1 : PLUS a b < 2 ^ 32 := PLUS_lt _ _
  have e4 : minus32 (PLUS a b) b = a := minus32_PLUS a b ha hb
  generalize PLUS a b = a1 at ha1 e4 ⊢
  have hd1 : ROTL32 (d ^^^ a1) 16 < 2 ^ 32 := ROTL32_lt _ _ (Nat.xor_lt_two_pow hd ha1)
  have e3 := undo_rotate d a1 16 (by decide) hd ha1
  generalize ROTL32 (d ^^^ a1) 16 = d1 at hd1 e3 ⊢
  have hc1 : PLUS c d1 < 2 ^ 32 := PLUS_lt _ _
  have e2 : minus32 (PLUS c d1) d1 = c := minus32_PLUS c d1 hc hd1
  generalize PLUS c d1 = c1 at hc1 e2 ⊢
  have hb1 : ROTL32 (b ^^^ c1) 12 < 2 ^ 32 := ROTL32_lt _ _ (Nat.xor_lt_two_pow hb hc1)
  have e1 := undo_rotate b c1 12 (by decide) hb hc1
  generalize ROTL32 (b ^^^ c1) 12 = b1 at hb1 e1 ⊢
  have ha2 : PLUS a1 b1 < 2 ^ 32 := PLUS_lt _ _
  have f4 : minus32 (PLUS a1 b1) b1 = a1 := minus32_PLUS a1 b1 ha1 hb1
  generalize PLUS a1 b1 = a2 at ha2 f4 ⊢
  have hd2 : ROTL32 (d1 ^^^ a2) 8 < 2 ^ 32 := ROTL32_lt _ _ (Nat.xor_lt_two_pow hd1 ha2)
  have f3 := undo_rotate d1 a2 8 (by decide) hd1 ha2
  generalize ROTL32 (d1 ^^^ a2) 8 = d2 at hd2 f3 ⊢
  have hc2 : PLUS c1 d2 < 2 ^ 32 := PLUS_lt _ _
  have f2 : minus32 (PLUS c1 d2) d2 = c1 := minus32_PLUS c1 d2 hc1 hd2
  generalize PLUS c1 d2 = c2 at hc2 f2 ⊢
  have f1 := undo_rotate b1 c2 7 (by decide) hb1 hc2
  generalize ROTL32 (b1 ^^^ c2) 7 = b2 at f1 ⊢
  rw [f1, f2, f3, f4, e1, e2, e3, e4]

theorem QUARTERROUND_quarter_round_inverse (a b c d : Nat) (ha : a < 2 ^ 32)
    (hb : b < 2 ^ 32) (hc : c < 2 ^ 32) (hd : d < 2 ^ 32) :
    QUARTERROUND (quarter_round_inverse a b c d).1 (quarter_round_inverse a b c d).2.1
      (quarter_round_inverse a b c d).2.2.1 (quarter_round_inverse a b c d).2.2.2 =
      (a, b, c, d) := by
  simp only [QUARTERROUND, quarter_round_inverse, ROTATE, XOR]
  have hb1 : rotate_right b 7 ^^^ c < 2 ^ 32 :=
    Nat.xor_lt_two_pow (rotate_right_lt b 7 hb (by decide)) hc
  have g1 := redo_rotate b c 7 (by decide) hb
  generalize rotate_right b 7 ^^^ c = b1 at hb1 g1 ⊢
  have hc1 : minus32 c d < 2 ^ 32 := minus32_lt _ _
  have g2 : PLUS (minus32 c d) d = c := PLUS_minus32 c d hc hd
  generalize minus32 c d = c1 at hc1 g2 ⊢
  have hd1 : rotate_right d 8 ^^^ a < 2 ^ 32 :=
    Nat.xor_lt_two_pow (rotate_right_lt d 8 hd (by decide)) ha
  have g3 := redo_rotate d a 8 (by decide) hd
  generalize rotate_right d 8 ^^^ a = d1 at hd1 g3 ⊢
  have ha1 : minus32 a b1 < 2 ^ 32 := minus32_lt _ _
  have g4 : PLUS (minus32 a b1) b1 = a := PLUS_minus32 a b1 ha hb1
  generalize minus32 a b1 = a1 at ha1 g4 ⊢
  have hb0 : rotate_right b1 12 ^^^ c1 < 2 ^ 32 :=
    Nat.xor_lt_two_pow (rotate_right_lt b1 12 hb1 (by decide)) hc1
  have k1 := redo_rotate b1 c1 12 (by decide) hb1
  generalize rotate_right b1 12 ^^^ c1 = b0 at hb0 k1 ⊢
  have k2 : PLUS (minus32 c1 d1) d1 = c1 := PLUS_minus32 c1 d1 hc1 hd1
  generalize minus32 c1 d1 = c0 at k2 ⊢
  have k3 := redo_rotate d1 a1 16 (by decide) hd1
  generalize rotate_right d1 16 ^^^ a1 = d0 at k3 ⊢
  have k4 : PLUS (minus32 a1 b0) b0 = a1 := PLUS_minus32 a1 b0 ha1 hb0
  generalize minus32 a1 b0 = a0 at k4 ⊢
  rw [k4, k3, k2, k1, g4, g3, g2, g1]

theorem QUARTERROUND_lt (a b c d : Nat) (hb : b < 2 ^ 32) (hd : d < 2 ^ 32) :
    (QUARTERROUND a b c d).1 < 2 ^ 32 ∧ (QUARTERROUND a b c d).2.1 < 2 ^ 32 ∧
    (QUARTERROUND a b c d).2.2.1 < 2 ^ 32 ∧ (QUARTERROUND a b c d).2.2.2 < 2 ^ 32 := by
  simp only [QUARTERROUND, ROTATE, XOR]
  have h1 : ROTL32 (d ^^^ PLUS a b) 16 < 2 ^ 32 :=
    ROTL32_lt _ _ (Nat.xor_lt_two_pow hd (PLUS_lt _ _))
  have h2 : ROTL32 (b ^^^ PLUS c (ROTL32 (d ^^^ PLUS a b) 16)) 12 < 2 ^ 32 :=
    ROTL32_lt _ _ (Nat.xor_lt_two_pow hb (PLUS_lt _ _))
  exact ⟨PLUS_lt _ _, ROTL32_lt _ _ (Nat.xor_lt_two_pow h2 (PLUS_lt _ _)), PLUS_lt _ _,
    ROTL32_lt _ _ (Nat.xor_lt_two_pow h1 (PLUS_lt _ _))⟩

theorem quarter_round_inverse_lt (a b c d : Nat) (ha : a < 2 ^ 32) (hb : b < 2 ^ 32)
    (hc : c < 2 ^ 32) (hd : d < 2 ^ 32) :
    (quarter_round_inverse a b c d).1 < 2 ^ 32 ∧ (quarter_round_inverse a b c d).2.1 < 2 ^ 32 ∧
    (quarter_round_inverse a b c d).2.2.1 < 2 ^ 32 ∧
    (quarter_round_inverse a b c d).2.2.2 < 2 ^ 32 := by
  simp only [quarter_round_inverse]
  have hb1 : rotate_right b 7 ^^^ c < 2 ^ 32 :=
    Nat.xor_lt_two_pow (rotate_right_lt b 7 hb (by decide)) hc
  have hd1 : rotate_right d 8 ^^^ a < 2 ^ 32 :=
    Nat.xor_lt_two_pow (rotate_right_lt d 8 hd (by decide)) ha
  exact ⟨minus32_lt _ _,
    Nat.xor_lt_two_pow (rotate_right_lt _ 12 hb1 (by decide)) (minus32_lt _ _),
    minus32_lt _ _,
    Nat.xor_lt_two_pow (rotate_right_lt _ 16 hd1 (by decide)) (minus32_lt _ _)⟩

/-! ## The mixing pass is a bijection -/

theorem update4_read (a b c d : Fin 16) (t : Nat × Nat × Nat × Nat) (s : Fin 16 → Nat)
    (hab : a ≠ b) (hac : a ≠ c) (had : a ≠ d) (hbc : b ≠ c) (hbd : b ≠ d) (hcd : c ≠ d) :
    update4 a b c d t s a = t.1 ∧ update4 a b c d t s b = t.2.1 ∧
    update4 a b c d t s c = t.2.2.1 ∧ update4 a b c d t s d = t.2.2.2 := by
  simp only [update4, Function.update_apply, hab, hac, had, hbc, hbd, hcd, if_true, if_false,
    and_self]

theorem update4_update4 (a b c d : Fin 16) (t u : Nat × Nat × Nat × Nat) (s : Fin 16 → Nat) :
    update4 a b c d u (update4 a b c d t s) = update4 a b c d u s := by
  funext i
  simp only [update4, Function.update_apply]
  split_ifs <;> rfl

theorem update4_self (a b c d : Fin 16) (s : Fin 16 → Nat) :
    update4 a b c d (s a, s b, s c, s d) s = s := by
  funext i
  simp only [update4, Function.update_apply]
  split_ifs with h1 h2 h3 h4
  · rw [h1]
  · rw [h2]
  · rw [h3]
  · rw [h4]
  · rfl

theorem update4_mem (a b c d : Fin 16) (t : Nat × Nat × Nat × Nat) (s : Fin 16 → Nat)
    (ht : t.1 < 2 ^ 32 ∧ t.2.1 < 2 ^ 32 ∧ t.2.2.1 < 2 ^ 32 ∧ t.2.2.2 < 2 ^ 32)
    (hs : s ∈ states32) : update4 a b c d t s ∈ states32 := by
  intro i
  simp only [update4, Function.update_apply]
  split_ifs
  · exact ht.2.2.2
  · exact ht.2.2.1
  · exact ht.2.1
  · exact ht.1
  · exact hs i

theorem quarter_round_at_eq (a b c d : Fin 16) (s : Fin 16 → Nat) :
    quarter_round_at a b c d s =
      update4 a b c d (QUARTERROUND (s a) (s b) (s c) (s d)) s := rfl

theorem quarter_round_inverse_at_eq (a b c d : Fin 16) (s : Fin 16 → Nat) :
    quarter_round_inverse_at a b c d s =
      update4 a b c d (quarter_round_inverse (s a) (s b) (s c) (s d)) s := rfl

theorem quarter_round_at_bijOn (a b c d : Fin 16)
    (hab : a ≠ b) (hac : a ≠ c) (had : a ≠ d) (hbc : b ≠ c) (hbd : b ≠ d) (hcd : c ≠ d) :
    Set.BijOn (quarter_round_at a b c d) states32 states32 := by
  have hinv : Set.InvOn (quarter_round_inverse_at a b c d) (quarter_round_at a b c d)
      states32 states32 := by
    constructor
    · intro s hs
      rw [quarter_round_inverse_at_eq, quarter_round_at_eq]
      obtain ⟨e1, e2, e3, e4⟩ :=
        update4_read a b c d (QUARTERROUND (s a) (s b) (s c) (s d)) s hab hac had hbc hbd hcd
      rw [e1, e2, e3, e4,
        quarter_round_inverse_QUARTERROUND _ _ _ _ (hs a) (hs b) (hs c) (hs d),
        update4_update4, update4_self]
    · intro s hs
      rw [quarter_round_at_eq, quarter_round_inverse_at_eq]
      obtain ⟨e1, e2, e3, e4⟩ :=
        update4_read a b c d (quarter_round_inverse (s a) (s b) (s c) (s d)) s
          hab hac had hbc hbd hcd
      rw [e1, e2, e3, e4,
        QUARTERROUND_quarter_round_inverse _ _ _ _ (hs a) (hs b) (hs c) (hs d),
        update4_update4, update4_self]
  refine hinv.bijOn ?_ ?_
  · intro s hs
    exact update4_mem a b c d _ s (QUARTERROUND_lt _ _ _ _ (hs b) (hs d)) hs
  · intro s hs
    exact update4_mem a b c d _ s
      (quarter_round_inverse_lt _ _ _ _ (hs a) (hs b) (hs c) (hs d)) hs

theorem double_round_bijOn : Set.BijOn double_round states32 states32 := by
  have q1 := quarter_round_at_bijOn 0 4 8 12 (by decide) (by decide) (by decide) (by decide)
    (by decide) (by decide)
  have q2 := quarter_round_at_bijOn 1 5 9 13 (by decide) (by decide) (by decide) (by decide)
    (by decide) (by decide)
  have q3 := quarter_round_at_bijOn 2 6 10 14 (by decide) (by decide) (by decide) (by decide)
    (by decide) (by decide)
  have q4 := quarter_round_at_bijOn 3 7 11 15 (by decide) (by decide) (by decide) (by decide)
    (by decide) (by decide)
  have q5 := quarter_round_at_bijOn 0 5 10 15 (by decide) (by decide) (by decide) (by decide)
    (by decide) (by decide)
  have q6 := quarter_round_at_bijOn 1 6 11 12 (by decide) (by decide) (by decide) (by decide)
    (by decide) (by decide)
  have q7 := quarter_round_at_bijOn 2 7 8 13 (by decide) (by decide) (by decide) (by decide)
    (by decide) (by decide)
  have q8 := quarter_round_at_bijOn 3 4 9 14 (by decide) (by decide) (by decide) (by decide)
    (by decide) (by decide)
  exact q8.comp (q7.comp (q6.comp (q5.comp (q4.comp (q3.comp (q2.comp q1))))))

theorem mixing_pass_bijOn : Set.BijOn mixing_pass states32 states32 :=
  double_round_bijOn.iterate 10

theorem round_loop_eq_mixing_pass (r : Regs) :
    round_loop 20 r = Regs.ofFun (mixing_pass r.toFun) := by
  have h := round_loop_toFun r.toFun
  rw [toFun_ofFun] at h
  rw [← h, toFun_ofFun]

theorem round_loop_bijOn : Set.BijOn (round_loop 20) regs32 regs32 := by
  refine ⟨?_, ?_, ?_⟩
  · intro r hr
    show (round_loop 20 r).toFun ∈ states32
    rw [round_loop_eq_mixing_pass, ofFun_toFun]
    exact mixing_pass_bijOn.mapsTo hr
  · intro r1 h1 r2 h2 h
    rw [round_loop_eq_mixing_pass, round_loop_eq_mixing_pass] at h
    have h3 := congrArg Regs.toFun h
    rw [ofFun_toFun, ofFun_toFun] at h3
    have h4 := mixing_pass_bijOn.injOn h1 h2 h3
    rw [← toFun_ofFun r1, ← toFun_ofFun r2, h4]
  · intro r hr
    obtain ⟨s, hs, e⟩ := mixing_pass_bijOn.surjOn hr
    refine ⟨Regs.ofFun s, ?_, ?_⟩
    · show (Regs.ofFun s).toFun ∈ states32
      rw [ofFun_toFun]
      exact hs
    · rw [round_loop_eq_mixing_pass, ofFun_toFun, e, toFun_ofFun]

/-- C17: the mixing network is a permutation.  On 4-tuples of 32-bit words
the quarter round has a two-sided inverse built from subtraction mod `2^32`,
rotation to the right and exclusive-or, so it is a bijection; and the full
mixing pass of `chacha20_wordtobyte`, the round loop before the feed-forward
addition, is a bijection on the 16-word states of 32-bit words. -/
theorem mixing_network_permutation :
    Set.InvOn quarter_round_inverse_map quarter_round_map tuples32 tuples32 ∧
    Set.BijOn quarter_round_map tuples32 tuples32 ∧
    Set.BijOn (round_loop 20) regs32 regs32 := by
  have hinv : Set.InvOn quarter_round_inverse_map quarter_round_map tuples32 tuples32 := by
    constructor
    · intro t ht
      exact quarter_round_inverse_QUARTERROUND _ _ _ _ ht.1 ht.2.1 ht.2.2.1 ht.2.2.2
    · intro t ht
      exact QUARTERROUND_quarter_round_inverse _ _ _ _ ht.1 ht.2.1 ht.2.2.1 ht.2.2.2
  refine ⟨hinv, hinv.bijOn ?_ ?_, round_loop_bijOn⟩
  · intro t ht
    exact QUARTERROUND_lt _ _ _ _ ht.2.1 ht.2.2.2
  · intro t ht
    exact quarter_round_inverse_lt _ _ _ _ ht.1 ht.2.1 ht.2.2.1 ht.2.2.2

/-! ## Termination of the main loop -/

theorem loop_iteration_le (m : List Nat) (s : LoopState) (h : s.bytes ≤ 64) :
    loop_iteration m s =
      Sum.inr (next_block s.x, xor_loop m s.c (chacha20_wordtobyte s.x.input) s.off s.bytes,
        s.blocks + 1) := by
  simp only [loop_iteration, if_pos h]
  rfl

theorem loop_iteration_gt (m : List Nat) (s : LoopState) (h : 64 < s.bytes)
    (h32 : s.bytes < 2 ^ 32) :
    loop_iteration m s =
      Sum.inl ⟨next_block s.x, xor_loop m s.c (chacha20_wordtobyte s.x.input) s.off 64,
        s.off + 64, s.bytes - 64, s.blocks + 1⟩ := by
  have h1 : ¬ s.bytes ≤ 64 := by omega
  have h2 : (s.bytes + 2 ^ 32 - 64) % 2 ^ 32 = s.bytes - 64 := by omega
  simp only [loop_iteration, if_neg h1, h2]
  rfl

theorem loop_run_eq (m : List Nat) (bytes : Nat) :
    ∀ (x : CHACHA20_ctx) (c : List Nat) (off n : Nat), 0 < bytes → bytes < 2 ^ 32 →
      loop_run m (blocks_of bytes) ⟨x, c, off, bytes, n⟩ =
        some ((encrypt_loop x m c off bytes).1, (encrypt_loop x m c off bytes).2,
          n + blocks_of bytes) := by
  induction bytes using Nat.strong_induction_on with
  | _ bytes ih =>
    intro x c off n hpos h32
    rw [encrypt_loop_eq]
    by_cases h : bytes ≤ 64
    · have h1 : blocks_of bytes = 1 := by unfold blocks_of; omega
      rw [h1, if_pos h, loop_run, loop_iteration_le m _ h]
    · have h1 : blocks_of bytes = blocks_of (bytes - 64) + 1 := by unfold blocks_of; omega
      rw [h1, if_neg h, loop_run, loop_iteration_gt m _ (by show 64 < bytes; omega) h32]
      show loop_run m (blocks_of (bytes - 64)) _ = _
      rw [ih (bytes - 64) (by omega) _ _ _ _ (by omega) (by omega)]
      dsimp only
      rw [show n + 1 + blocks_of (bytes - 64) = n + (blocks_of (bytes - 64) + 1) by omega]

theorem loop_run_none (m : List Nat) (fuel : Nat) :
    ∀ (s : LoopState), s.bytes < 2 ^ 32 → fuel < blocks_of s.bytes → loop_run m fuel s = none := by
  induction fuel with
  | zero => intro s _ _; rfl
  | succ fuel ih =>
    intro s h32 hf
    have h : 64 < s.bytes := by unfold blocks_of at hf; omega
    rw [loop_run, loop_iteration_gt m s h h32]
    exact ih _ (by show s.bytes - 64 < 2 ^ 32; omega)
      (by show fuel < blocks_of (s.bytes - 64); unfold blocks_of at hf ⊢; omega)

/-- C20: termination without underflow.  For every 32-bit length, the loop of
`CHACHA20_encrypt_bytes` returns after exactly `ceil(length/64)` generations of
a keystream block (it has returned after that many passes, with the result of
`CHACHA20_encrypt_bytes`, and not after fewer); a pass executes `bytes -= 64`
only when `bytes > 64`, and then the `u32` subtraction does not wrap: the
remaining length is `bytes - 64`, positive and smaller than before. -/
theorem encrypt_bytes_terminates (x : CHACHA20_ctx) (m c : List Nat) (bytes : Nat)
    (h32 : bytes < 2 ^ 32) :
    encrypt_bytes_run ((bytes + 63) / 64) x m c bytes =
      some ((CHACHA20_encrypt_bytes x m c bytes).1, (CHACHA20_encrypt_bytes x m c bytes).2,
        (bytes + 63) / 64) ∧
    (∀ fuel : Nat, fuel < (bytes + 63) / 64 → encrypt_bytes_run fuel x m c bytes = none) ∧
    (∀ s s' : LoopState, s.bytes < 2 ^ 32 → loop_iteration m s = Sum.inl s' →
      64 < s.bytes ∧ s'.bytes = s.bytes - 64 ∧ 0 < s'.bytes ∧ s'.bytes < s.bytes ∧
      s'.blocks = s.blocks + 1) := by
  refine ⟨?_, ?_, ?_⟩
  · unfold encrypt_bytes_run CHACHA20_encrypt_bytes
    by_cases h : bytes = 0
    · subst h
      rfl
    · rw [if_neg h, if_neg h]
      have h1 := loop_run_eq m bytes x c 0 0 (by omega) h32
      rw [Nat.zero_add] at h1
      exact h1
  · intro fuel hf
    unfold encrypt_bytes_run
    have h : bytes ≠ 0 := by
      intro h
      subst h
      omega
    rw [if_neg h]
    exact loop_run_none m fuel _ h32 hf
  · intro s s' hs h
    by_cases h1 : s.bytes ≤ 64
    · rw [loop_iteration_le m s h1] at h
      cases h
    · have h2 : 64 < s.bytes := by omega
      rw [loop_iteration_gt m s h2 hs] at h
      cases h
      exact ⟨h2, rfl, by show 0 < s.bytes - 64; omega, by show s.bytes - 64 < s.bytes; omega,
        rfl⟩

theorem encrypt_bytes_terminates_witness :
    2 ^ 32 - 1 < 2 ^ 32 ∧
    encrypt_bytes_run ((2 ^ 32 - 1 + 63) / 64) zero_key_ctx (List.replicate (2 ^ 32 - 1) 0)
        (List.replicate (2 ^ 32 - 1) 0) (2 ^ 32 - 1) =
      some
        ((CHACHA20_encrypt_bytes zero_key_ctx (List.replicate (2 ^ 32 - 1) 0)
            (List.replicate (2 ^ 32 - 1) 0) (2 ^ 32 - 1)).1,
          (CHACHA20_encrypt_bytes zero_key_ctx (List.replicate (2 ^ 32 - 1) 0)
            (List.replicate (2 ^ 32 - 1) 0) (2 ^ 32 - 1)).2,
          (2 ^ 32 - 1 + 63) / 64) :=
  ⟨by decide,
    (encrypt_bytes_terminates zero_key_ctx (List.replicate (2 ^ 32 - 1) 0)
      (List.replicate (2 ^ 32 - 1) 0) (2 ^ 32 - 1) (by decide)).1⟩

end StreamKit
